import Mathlib

/-!
Verification of the content-monitoring pipeline of the Web-content-monitor
repository: the crawler's text cleaning and content extraction
(`backend/app/crawler.py`), the diff engine (`backend/app/services/diff_service.py`
together with Python's `difflib.SequenceMatcher`), the fetcher's retry and
rate-limit logic, and the scheduler's per-page check
(`backend/app/scheduler.py`).  Python strings are modelled as `List Char`,
machine floats by exact rationals (all values reasoned about here are exact),
and fallible operations by `Option`.
-/

namespace WebMon

/-! ### Python-style string primitives used by `crawler.py` -/

/-- ASCII whitespace, as matched by Python's `str.strip` / `str.split` / `\s`
(restricted to the ASCII range actually exercised by the crawler). -/
def pyIsSpace (c : Char) : Bool :=
  c == ' ' || c == '\t' || c == '\n' || c == '\r' || c.val == 11 || c.val == 12

/-- `str.strip()` on a character list. -/
def pyStripL (l : List Char) : List Char :=
  ((l.dropWhile pyIsSpace).reverse.dropWhile pyIsSpace).reverse

/-- `text.split('\n')`: split on newline, keeping empty pieces. -/
def pySplitNl : List Char → List (List Char)
  | [] => [[]]
  | c :: rest =>
    if c = '\n' then [] :: pySplitNl rest
    else
      match pySplitNl rest with
      | [] => [[c]]
      | h :: t => (c :: h) :: t

/-- Characters treated as line boundaries by Python's `str.splitlines`. -/
def lineBreakChar (c : Char) : Bool :=
  c == '\n' || c == '\r' || c.val == 11 || c.val == 12 || c.val == 28 ||
  c.val == 29 || c.val == 30 || c.val == 133 || c.val == 8232 || c.val == 8233

/-- Worker for `str.splitlines` (no trailing empty line, `\r\n` is one break). -/
def splitLinesAux : List Char → List Char → List (List Char)
  | [], acc => if acc = [] then [] else [acc.reverse]
  | '\r' :: '\n' :: rest, acc => acc.reverse :: splitLinesAux rest []
  | c :: rest, acc =>
    if lineBreakChar c then acc.reverse :: splitLinesAux rest []
    else splitLinesAux rest (c :: acc)

/-- Python `str.splitlines`. -/
def pySplitLines (s : String) : List String :=
  (splitLinesAux s.data []).map String.mk

/-- Worker for `str.split()` with no separator: whitespace-run splitting. -/
def pyWordsAux : List Char → List Char → List (List Char)
  | [], acc => if acc = [] then [] else [acc.reverse]
  | c :: rest, acc =>
    if pyIsSpace c then
      if acc = [] then pyWordsAux rest [] else acc.reverse :: pyWordsAux rest []
    else pyWordsAux rest (c :: acc)

/-- Python `text.split()` (split on whitespace runs, dropping empties). -/
def pyWords (l : List Char) : List (List Char) := pyWordsAux l []

/-- `'\n'.join(...)` on character lists. -/
def joinNlC : List (List Char) → List Char
  | [] => []
  | [p] => p
  | p :: rest => p ++ '\n' :: joinNlC rest

/-- Replace every maximal run of the character `c` whose length is at least
`thr` by `rep` copies of `c`; shorter runs are kept as they are.  This is
`re.sub(c{thr,}, c*rep, ·)`.  The `run` argument counts the pending run of
`c` already consumed. -/
def collapseRunsAux (c : Char) (thr rep : Nat) : List Char → Nat → List Char
  | [], run => List.replicate (if thr ≤ run then rep else run) c
  | x :: rest, run =>
    if x = c then collapseRunsAux c thr rep rest (run + 1)
    else
      List.replicate (if thr ≤ run then rep else run) c ++
        x :: collapseRunsAux c thr rep rest 0

/-- `re.sub(r'\n{3,}', '\n\n', ·)` from `clean_text`. -/
def collapseNewlines (l : List Char) : List Char := collapseRunsAux '\n' 3 2 l 0

/-- `re.sub(r' {2,}', ' ', ·)` from `clean_text`. -/
def collapseSpaces (l : List Char) : List Char := collapseRunsAux ' ' 2 1 l 0

/-! ### The noise heuristics of `ContentFetcher.is_meaningful_text` -/

def isDigitChar (c : Char) : Bool := '0' ≤ c && c ≤ '9'

def isAsciiLetter (c : Char) : Bool := ('A' ≤ c && c ≤ 'Z') || ('a' ≤ c && c ≤ 'z')

def asciiLower (c : Char) : Char :=
  if 'A' ≤ c && c ≤ 'Z' then Char.ofNat (c.toNat + 32) else c

def lowerL (l : List Char) : List Char := l.map asciiLower

/-- Python's `$` right after a token: end of string, or just before a final
newline. -/
def atEndStr (rest : List Char) : Bool := rest.isEmpty || rest == ['\n']

/-- `re.search(r'^\s*\d+\s*$', text)`: the whole line is a number surrounded
by optional whitespace. -/
def matchesPureNumber (l : List Char) : Bool :=
  let r := l.dropWhile pyIsSpace
  let d := r.takeWhile isDigitChar
  !d.isEmpty && (r.drop d.length).all pyIsSpace

/-- `re.search(r'^[A-Z\s]{10,}$', text, re.IGNORECASE)`.  With `IGNORECASE`
the class `[A-Z]` also matches lowercase letters, so this fires on any line of
at least ten letters and whitespace. -/
def matchesUpperNav (l : List Char) : Bool :=
  10 ≤ l.length && l.all (fun c => isAsciiLetter c || pyIsSpace c)

def navWords : List (List Char) :=
  ["home".data, "about".data, "contact".data, "menu".data, "login".data,
   "sign up".data, "subscribe".data, "search".data]

/-- `re.search(r'^(Home|About|...)(\s|$)', text, re.IGNORECASE)`. -/
def matchesNavStart (l : List Char) : Bool :=
  navWords.any (fun w =>
    lowerL (l.take w.length) == w &&
    (match l.drop w.length with
     | [] => true
     | c :: _ => pyIsSpace c))

def boilerplateWords : List (List Char) :=
  ["cookie".data, "privacy policy".data, "terms of service".data,
   "all rights reserved".data]

/-- `re.search(r'Cookie|Privacy Policy|Terms of Service|All rights reserved',
text, re.IGNORECASE)`: case-insensitive substring search. -/
def matchesBoilerplate (l : List Char) : Bool :=
  boilerplateWords.any (fun w => decide (w <:+: lowerL l))

/-- `re.search(r'^\d+\s+of\s+\d+$', text, re.IGNORECASE)`. -/
def matchesPagination (l : List Char) : Bool :=
  let d1 := l.takeWhile isDigitChar
  let r1 := l.drop d1.length
  let s1 := r1.takeWhile pyIsSpace
  let r2 := r1.drop s1.length
  !d1.isEmpty && !s1.isEmpty &&
  (match r2 with
   | o :: f :: r3 =>
     asciiLower o == 'o' && asciiLower f == 'f' &&
     (let s2 := r3.takeWhile pyIsSpace
      let r4 := r3.drop s2.length
      let d2 := r4.takeWhile isDigitChar
      !s2.isEmpty && !d2.isEmpty && atEndStr (r4.drop d2.length))
   | _ => false)

/-- `re.search(r'^Page\s+\d+$', text, re.IGNORECASE)`. -/
def matchesPageNum (l : List Char) : Bool :=
  lowerL (l.take 4) == "page".data &&
  (let r1 := l.drop 4
   let s1 := r1.takeWhile pyIsSpace
   let r2 := r1.drop s1.length
   let d := r2.takeWhile isDigitChar
   !s1.isEmpty && !d.isEmpty && atEndStr (r2.drop d.length))

/-- `re.search(r'^©\s*\d{4}', text)`. -/
def matchesCopyright (l : List Char) : Bool :=
  match l with
  | c :: rest => c == '©' && 4 ≤ ((rest.dropWhile pyIsSpace).takeWhile isDigitChar).length
  | [] => false

/-- Whole-line case-insensitive match (`^...$` with `re.IGNORECASE`). -/
def matchesExactCI (l : List Char) (w : List Char) : Bool :=
  lowerL l == w || lowerL l == w ++ ['\n']

/-- `ContentFetcher.is_meaningful_text`.  The trailing technical-pattern block
of the source returns `True` in both of its arms, so after the skip patterns
the function always returns `True`. -/
def isMeaningfulText (text : String) : Bool :=
  let l := text.data
  if l.length < 15 then false
  else if (pyWords l).length < 3 then false
  else if matchesPureNumber l || matchesUpperNav l || matchesNavStart l ||
          matchesBoilerplate l || matchesPagination l || matchesPageNum l ||
          matchesCopyright l || matchesExactCI l "back to top".data ||
          matchesExactCI l "skip to main content".data then false
  else true

/-! ### `ContentFetcher.clean_text` -/

/-- One iteration of the line-filtering loop of `clean_text`: strip the raw
line, then drop it if it is empty, under 10 characters, already kept (the
`seen_lines` set coincides with the kept lines), or not meaningful. -/
def cleanStep (acc : List (List Char)) (raw : List Char) : List (List Char) :=
  let line := pyStripL raw
  if line = [] then acc
  else if line.length < 10 then acc
  else if line ∈ acc then acc
  else if isMeaningfulText (String.mk line) then acc ++ [line]
  else acc

/-- The line-filtering loop of `clean_text`. -/
def cleanKeptLines (rawLines : List (List Char)) : List (List Char) :=
  rawLines.foldl cleanStep []

/-- `ContentFetcher.clean_text`. -/
def cleanText (text : String) : String :=
  if text = "" then ""
  else
    let kept := cleanKeptLines (pySplitNl text.data)
    String.mk (pyStripL (collapseSpaces (collapseNewlines (joinNlC kept))))

/-! ### `ContentFetcher.extract_main_content`

BeautifulSoup itself is an external library; the parsed document is modelled
by the query results the extractor reads from it: the `get_text` of the first
match of each semantic selector (in the order of `main_selectors`, after
removal of unwanted elements), the element list of the `find_all` fallback,
and the whole-document text.  A `none` document models an internal parser
exception, which the source catches and turns into `""`. -/

structure PElem where
  childTags : Nat
  rawText : String
  sepText : String

structure SoupDoc where
  selTexts : List (Option String)
  elems : List PElem
  allText : String

/-- The semantic-selector loop: first selector whose text is over 100
characters and cleans to over 50 characters wins. -/
def trySelectors : List (Option String) → Option String
  | [] => none
  | none :: rest => trySelectors rest
  | some t :: rest =>
    if 100 < t.length then
      let cleaned := cleanText t
      if 50 < cleaned.length then some cleaned else trySelectors rest
    else trySelectors rest

/-- The meaningful-element fallback: skip elements whose child-tag count
exceeds a third of their word count, keep meaningful texts. -/
def meaningfulTexts (d : SoupDoc) : List String :=
  d.elems.filterMap (fun e =>
    if (pyWords e.rawText.data).length / 3 < e.childTags then none
    else if isMeaningfulText e.sepText then some e.sepText
    else none)

/-- `ContentFetcher.extract_main_content`. -/
def extractMainContent (html : String) (doc : Option SoupDoc) : String :=
  if pyStripL html.data = [] then ""
  else
    match doc with
    | none => ""
    | some d =>
      match trySelectors d.selTexts with
      | some res => res
      | none =>
        let texts := meaningfulTexts d
        let fallback :=
          let cleanedAll := cleanText d.allText
          if 50 < cleanedAll.length then cleanedAll else ""
        if texts ≠ [] then
          let cleaned := cleanText (String.intercalate "\n" texts)
          if 50 < cleaned.length then cleaned else fallback
        else fallback

/-! ### Python `difflib.SequenceMatcher` (with `isjunk=None`)

Both the scheduler's change percentage (over characters) and the diff
service's opcodes (over lines) use `SequenceMatcher(None, a, b)`.  The
embedding is generic in the element type.  With `isjunk=None` the junk set
`bjunk` is empty, so the junk-extension phases of `find_longest_match` never
fire; the autojunk "popular element" rule does apply and empties the
position list of elements occurring too often in long sequences. -/

/-- All positions of `x` in `b`, ascending (the `b2j` chains). -/
def positionsOf {α : Type} [DecidableEq α] (b : List α) (x : α) : List Nat :=
  (List.range b.length).filter (fun i => b.get? i = some x)

/-- The `b2j` map after the autojunk rule: for sequences of length at least
200, elements occurring more than `len // 100 + 1` times are dropped. -/
def seqB2j {α : Type} [DecidableEq α] (b : List α) (x : α) : List Nat :=
  let ps := positionsOf b x
  if 200 ≤ b.length ∧ b.length / 100 + 1 < ps.length then [] else ps

/-- The inner `j` loop of `find_longest_match`: walk the position chain of
`a[i]`, skipping positions below `blo` and stopping at the first position at
or beyond `bhi`; `k = j2len.get(j-1, 0) + 1` extends the diagonal run, and a
strictly larger run updates the best block. -/
def dpJLoop (prev : Nat → Nat) (blo bhi i : Nat) :
    List Nat → (Nat → Nat) → Nat × Nat × Nat → (Nat → Nat) × (Nat × Nat × Nat)
  | [], cur, best => (cur, best)
  | j :: js, cur, best =>
    if j < blo then dpJLoop prev blo bhi i js cur best
    else if bhi ≤ j then (cur, best)
    else
      let k := (if j = 0 then 0 else prev (j - 1)) + 1
      let cur' : Nat → Nat := fun c => if c = j then k else cur c
      let best' := if best.2.2 < k then (i + 1 - k, j + 1 - k, k) else best
      dpJLoop prev blo bhi i js cur' best'

/-- The outer `i` loop of `find_longest_match`, over rows `alo ≤ i < ahi`
(the first argument counts the remaining rows). -/
def dpRows {α : Type} [DecidableEq α] (a : List α) (b2j : α → List Nat)
    (blo bhi : Nat) :
    Nat → Nat → (Nat → Nat) → Nat × Nat × Nat → (Nat → Nat) × (Nat × Nat × Nat)
  | 0, _, prev, best => (prev, best)
  | n + 1, i, prev, best =>
    let js := match a.get? i with
      | some x => b2j x
      | none => []
    let s := dpJLoop prev blo bhi i js (fun _ => 0) best
    dpRows a b2j blo bhi n (i + 1) s.1 s.2

/-- Do `a[i]` and `b[j]` exist and agree? -/
def matchAt {α : Type} [DecidableEq α] (a b : List α) (i j : Nat) : Bool :=
  match a.get? i, b.get? j with
  | some x, some y => x = y
  | _, _ => false

/-- Is `b[j]` present and not junk? -/
def notJunkAt {α : Type} (junk : α → Bool) (b : List α) (j : Nat) : Bool :=
  match b.get? j with
  | some y => !junk y
  | none => false

/-- Is `b[j]` present and junk? -/
def junkAt {α : Type} (junk : α → Bool) (b : List α) (j : Nat) : Bool :=
  match b.get? j with
  | some y => junk y
  | none => false

/-- First extension loop: grow the best block downwards over equal non-junk
elements. -/
def extendLower {α : Type} [DecidableEq α] (a b : List α) (junk : α → Bool)
    (alo blo : Nat) : Nat → Nat × Nat × Nat → Nat × Nat × Nat
  | 0, best => best
  | f + 1, (bi, bj, bs) =>
    if alo < bi ∧ blo < bj ∧ notJunkAt junk b (bj - 1) = true ∧
        matchAt a b (bi - 1) (bj - 1) = true then
      extendLower a b junk alo blo f (bi - 1, bj - 1, bs + 1)
    else (bi, bj, bs)

/-- Second extension loop: grow the best block upwards over equal non-junk
elements. -/
def extendUpper {α : Type} [DecidableEq α] (a b : List α) (junk : α → Bool)
    (ahi bhi : Nat) : Nat → Nat × Nat × Nat → Nat × Nat × Nat
  | 0, best => best
  | f + 1, (bi, bj, bs) =>
    if bi + bs < ahi ∧ bj + bs < bhi ∧ notJunkAt junk b (bj + bs) = true ∧
        matchAt a b (bi + bs) (bj + bs) = true then
      extendUpper a b junk ahi bhi f (bi, bj, bs + 1)
    else (bi, bj, bs)

/-- Third extension loop: grow downwards over equal junk elements. -/
def extendLowerJunk {α : Type} [DecidableEq α] (a b : List α) (junk : α → Bool)
    (alo blo : Nat) : Nat → Nat × Nat × Nat → Nat × Nat × Nat
  | 0, best => best
  | f + 1, (bi, bj, bs) =>
    if alo < bi ∧ blo < bj ∧ junkAt junk b (bj - 1) = true ∧
        matchAt a b (bi - 1) (bj - 1) = true then
      extendLowerJunk a b junk alo blo f (bi - 1, bj - 1, bs + 1)
    else (bi, bj, bs)

/-- Fourth extension loop: grow upwards over equal junk elements. -/
def extendUpperJunk {α : Type} [DecidableEq α] (a b : List α) (junk : α → Bool)
    (ahi bhi : Nat) : Nat → Nat × Nat × Nat → Nat × Nat × Nat
  | 0, best => best
  | f + 1, (bi, bj, bs) =>
    if bi + bs < ahi ∧ bj + bs < bhi ∧ junkAt junk b (bj + bs) = true ∧
        matchAt a b (bi + bs) (bj + bs) = true then
      extendUpperJunk a b junk ahi bhi f (bi, bj, bs + 1)
    else (bi, bj, bs)

/-- `SequenceMatcher.find_longest_match` on the window
`a[alo:ahi]`, `b[blo:bhi]`. -/
def findLongestMatch {α : Type} [DecidableEq α] (a b : List α)
    (b2j : α → List Nat) (junk : α → Bool) (alo ahi blo bhi : Nat) :
    Nat × Nat × Nat :=
  let d := dpRows a b2j blo bhi (ahi - alo) alo (fun _ => 0) (alo, blo, 0)
  let e1 := extendLower a b junk alo blo d.2.1 d.2
  let e2 := extendUpper a b junk ahi bhi ahi e1
  let e3 := extendLowerJunk a b junk alo blo e3Fuel e2
  extendUpperJunk a b junk ahi bhi ahi e3
where
  e3Fuel := ahi + bhi

/-- The recursive block collection of `get_matching_blocks` (the queue-based
loop of the source visits windows in this order once sorted). -/
def matchingBlocksAux {α : Type} [DecidableEq α] (a b : List α)
    (b2j : α → List Nat) (junk : α → Bool) :
    Nat → Nat → Nat → Nat → Nat → List (Nat × Nat × Nat)
  | 0, _, _, _, _ => []
  | f + 1, alo, ahi, blo, bhi =>
    let m := findLongestMatch a b b2j junk alo ahi blo bhi
    if m.2.2 = 0 then []
    else
      matchingBlocksAux a b b2j junk f alo m.1 blo m.2.1 ++
        m :: matchingBlocksAux a b b2j junk f (m.1 + m.2.2) ahi (m.2.1 + m.2.2) bhi

/-- The adjacent-block merging pass of `get_matching_blocks`. -/
def mergeAdjacent : Nat × Nat × Nat → List (Nat × Nat × Nat) → List (Nat × Nat × Nat)
  | acc, [] => if acc.2.2 ≠ 0 then [acc] else []
  | acc, blk :: rest =>
    if acc.1 + acc.2.2 = blk.1 ∧ acc.2.1 + acc.2.2 = blk.2.1 then
      mergeAdjacent (acc.1, acc.2.1, acc.2.2 + blk.2.2) rest
    else
      (if acc.2.2 ≠ 0 then [acc] else []) ++ mergeAdjacent blk rest

/-- `SequenceMatcher.get_matching_blocks` (with the terminating sentinel). -/
def getMatchingBlocks {α : Type} [DecidableEq α] (a b : List α)
    (junk : α → Bool) : List (Nat × Nat × Nat) :=
  let blocks := matchingBlocksAux a b (seqB2j b) junk
    (a.length + b.length + 1) 0 a.length 0 b.length
  mergeAdjacent (0, 0, 0) blocks ++ [(a.length, b.length, 0)]

inductive OpTag where
  | equal | replace | delete | insert
  deriving DecidableEq

/-- The opcode assembly loop of `SequenceMatcher.get_opcodes`. -/
def opcodesAux : Nat → Nat → List (Nat × Nat × Nat) →
    List (OpTag × Nat × Nat × Nat × Nat)
  | _, _, [] => []
  | i, j, (ai, bj, size) :: rest =>
    (if i < ai ∧ j < bj then [(OpTag.replace, i, ai, j, bj)]
     else if i < ai then [(OpTag.delete, i, ai, j, bj)]
     else if j < bj then [(OpTag.insert, i, ai, j, bj)]
     else []) ++
    (if size ≠ 0 then [(OpTag.equal, ai, ai + size, bj, bj + size)] else []) ++
    opcodesAux (ai + size) (bj + size) rest

/-- `SequenceMatcher.get_opcodes`. -/
def getOpcodes {α : Type} [DecidableEq α] (a b : List α) (junk : α → Bool) :
    List (OpTag × Nat × Nat × Nat × Nat) :=
  opcodesAux 0 0 (getMatchingBlocks a b junk)

/-- `SequenceMatcher.ratio()`: twice the matched length over the total
length, as an exact rational (`1.0` on two empty sequences). -/
def matcherSimilarity {α : Type} [DecidableEq α] (a b : List α)
    (junk : α → Bool) : ℚ :=
  if a.length + b.length = 0 then 1
  else 2 * (((getMatchingBlocks a b junk).map (fun m => m.2.2)).sum : ℚ) /
    ((a.length : ℚ) + (b.length : ℚ))

/-- Ghost predicate for the matcher proofs: position `c` of `a` carries its
own position in its `b2j` chain (i.e. the element at `c` was not dropped). -/
def diagOnB {α : Type} [DecidableEq α] (a : List α) (b2j : α → List Nat)
    (c : Nat) : Bool :=
  match a.get? c with
  | some x => decide (c ∈ b2j x)
  | none => false

/-- Ghost function for the matcher proofs: the length of the diagonal run of
kept positions ending at `c` (the value the `j2len` dynamic program computes
on the diagonal when `a = b`). -/
def dchain {α : Type} [DecidableEq α] (a : List α) (b2j : α → List Nat) :
    Nat → Nat
  | 0 => if diagOnB a b2j 0 then 1 else 0
  | c + 1 => if diagOnB a b2j (c + 1) then dchain a b2j c + 1 else 0

/-! ### `DiffService.compare_text` and the scheduler's change percentage -/

inductive ChangeType where
  | added | removed | modified
  deriving DecidableEq

structure ContentChange where
  change_type : ChangeType
  old_content : String
  new_content : String
  line_range_old : Nat × Nat
  line_range_new : Nat × Nat
  deriving DecidableEq

/-- `DiffService.compare_text`: one `ContentChange` per non-equal opcode. -/
def compareText (oldText newText : String) : List ContentChange :=
  let oldLines := pySplitLines oldText
  let newLines := pySplitLines newText
  (getOpcodes oldLines newLines (fun _ => false)).filterMap (fun op =>
    match op with
    | (OpTag.replace, i1, i2, j1, j2) =>
      some ⟨ChangeType.modified,
        String.intercalate "\n" ((oldLines.drop i1).take (i2 - i1)),
        String.intercalate "\n" ((newLines.drop j1).take (j2 - j1)),
        (i1, i2), (j1, j2)⟩
    | (OpTag.delete, i1, i2, j1, _) =>
      some ⟨ChangeType.removed,
        String.intercalate "\n" ((oldLines.drop i1).take (i2 - i1)),
        "", (i1, i2), (j1, j1)⟩
    | (OpTag.insert, i1, _, j1, j2) =>
      some ⟨ChangeType.added, "",
        String.intercalate "\n" ((newLines.drop j1).take (j2 - j1)),
        (i1, i1), (j1, j2)⟩
    | (OpTag.equal, _, _, _, _) => none)

/-- Python `round(x, 1)` (round half to even), as a rational. -/
def pyRound1 (q : ℚ) : ℚ :=
  let x := 10 * q
  let n := ⌊x⌋
  let frac := x - n
  if frac < 1 / 2 then n / 10
  else if 1 / 2 < frac then (n + 1) / 10
  else if Even n then n / 10 else (n + 1) / 10

/-- `MonitoringScheduler._calculate_change_percentage`.  Empty old content is
a 100% change, empty new content a 0% change, otherwise
`round((1 - ratio) * 100, 1)` over the raw character sequences. -/
def calculateChangePercentage (oldContent newContent : String) : ℚ :=
  if oldContent = "" then 100
  else if newContent = "" then 0
  else pyRound1 ((1 - matcherSimilarity oldContent.data newContent.data (fun _ => false)) * 100)

/-- The severity classification of
`MonitoringScheduler._send_change_notification`. -/
def changeSeverity (changePercentage : ℚ) : String :=
  if 50 < changePercentage then "Major"
  else if 20 < changePercentage then "Moderate"
  else "Minor"

/-! ### `ContentFetcher.fetch_url`

The network is modelled by the outcome of each attempt (index 0, 1, ...) and
the wall-clock duration of each attempted request; `time.time()` and
`time.sleep` are modelled by an explicit rational clock in the state.  A
`success` outcome is a response that passed `raise_for_status` (its
content-type is still checked); the other constructors are the exception
classes caught by the source. -/

inductive AttemptOutcome where
  | success (contentType : String) (text : String)
  | timeout
  | connError
  | httpError (status : Nat)
  | reqError

structure FetchState where
  now : ℚ
  domainDelays : String → Option ℚ

/-- List-level `startswith`. -/
def startsWithL (l p : List Char) : Bool := l.take p.length == p

/-- `url.startswith(('http://', 'https://'))` (empty URLs fail this too). -/
def validUrlFormat (url : String) : Bool :=
  startsWithL url.data "http://".data || startsWithL url.data "https://".data

/-- Everything after the first `//`. -/
def afterSchemeSep : List Char → List Char
  | [] => []
  | '/' :: '/' :: rest => rest
  | _ :: rest => afterSchemeSep rest

/-- `urlparse(url).netloc` for the http/https URLs accepted by the format
check. -/
def urlDomain (url : String) : String :=
  String.mk ((afterSchemeSep url.data).takeWhile
    (fun c => ¬ (c = '/' ∨ c = '?' ∨ c = '#')))

/-- The per-domain rate limiting prelude of `fetch_url`: if the domain was
last requested under one second ago, sleep until a full second has passed. -/
def applyRateLimit (st : FetchState) (domain : String) : FetchState :=
  match st.domainDelays domain with
  | none => st
  | some t =>
    if st.now - t < 1 then { st with now := st.now + (1 - (st.now - t)) } else st

/-- The content-type allow-list check (`content_type` is lowercased by the
source before the substring tests). -/
def allowedContentType (contentType : String) : Bool :=
  decide ("text/html".data <:+: lowerL contentType.data) ||
  decide ("text/plain".data <:+: lowerL contentType.data) ||
  decide ("application/xhtml".data <:+: lowerL contentType.data)

/-- The attempt loop of `fetch_url`.  Returns the result, the number of
attempts actually made, and the final state.  Client errors 404/403/401
break out of the loop (returning `None`); timeouts, connection errors, other
HTTP errors and generic request errors fall through to the retry logic,
which sleeps `2^attempt` seconds before the next attempt and returns `None`
after the last one.  Only a successful response with an allowed content type
records the domain timestamp. -/
def fetchAttempts (outcomes : Nat → AttemptOutcome) (reqDur : Nat → ℚ)
    (domain : String) (maxRetries : Nat) :
    Nat → Nat → FetchState → Option String × Nat × FetchState
  | 0, attempt, st => (none, attempt, st)
  | fuel + 1, attempt, st =>
    let st1 := { st with now := st.now + reqDur attempt }
    match outcomes attempt with
    | AttemptOutcome.success ct text =>
      if allowedContentType ct then
        (some text, attempt + 1,
          { st1 with domainDelays := fun d =>
              if d = domain then some st1.now else st1.domainDelays d })
      else (none, attempt + 1, st1)
    | AttemptOutcome.httpError status =>
      if status = 404 ∨ status = 403 ∨ status = 401 then (none, attempt + 1, st1)
      else if attempt + 1 < maxRetries then
        fetchAttempts outcomes reqDur domain maxRetries fuel (attempt + 1)
          { st1 with now := st1.now + (2 ^ attempt : ℚ) }
      else (none, attempt + 1, st1)
    | AttemptOutcome.timeout =>
      if attempt + 1 < maxRetries then
        fetchAttempts outcomes reqDur domain maxRetries fuel (attempt + 1)
          { st1 with now := st1.now + (2 ^ attempt : ℚ) }
      else (none, attempt + 1, st1)
    | AttemptOutcome.connError =>
      if attempt + 1 < maxRetries then
        fetchAttempts outcomes reqDur domain maxRetries fuel (attempt + 1)
          { st1 with now := st1.now + (2 ^ attempt : ℚ) }
      else (none, attempt + 1, st1)
    | AttemptOutcome.reqError =>
      if attempt + 1 < maxRetries then
        fetchAttempts outcomes reqDur domain maxRetries fuel (attempt + 1)
          { st1 with now := st1.now + (2 ^ attempt : ℚ) }
      else (none, attempt + 1, st1)

/-- `ContentFetcher.fetch_url` (default `max_retries=3`). -/
def fetchUrl (url : String) (outcomes : Nat → AttemptOutcome)
    (reqDur : Nat → ℚ) (st : FetchState) (maxRetries : Nat := 3) :
    Option String × Nat × FetchState :=
  if validUrlFormat url then
    fetchAttempts outcomes reqDur (urlDomain url) maxRetries maxRetries 0
      (applyRateLimit st (urlDomain url))
  else (none, 0, st)

/-! ### `MonitoringScheduler._check_single_page`

The persistent store rows of one page are modelled directly: the version
texts newest first (the `timestamp DESCENDING` order), and the change-log
entries appended by the scheduler.  Store writes are assumed to succeed
(the database is reachable), and the notification call does not change this
state. -/

structure ChangeLogEntry where
  changePercentage : ℚ
  previousLength : Nat
  newLength : Nat
  notificationSent : Bool
  time : ℚ
  deriving DecidableEq

structure PageState where
  versions : List (Nat × String)
  nextId : Nat
  lastChecked : Option ℚ
  lastChangeDetected : Option ℚ
  currentVersionId : Option Nat
  changeLogs : List ChangeLogEntry
  deriving DecidableEq

/-- `get_latest_page_version`: fetch the two most recent versions and return
the second one; with fewer than two versions there is nothing to compare
against and the result is `None`. -/
def getLatestPageVersion (versions : List (Nat × String)) : Option (Nat × String) :=
  match versions with
  | _ :: second :: _ => some second
  | _ => none

/-- `MonitoringScheduler._check_single_page` for one page, given the result
of `_fetch_page_content` (`none` models a failed fetch; the source also
treats an empty extracted text as a failure via `if not current_content`). -/
def checkSinglePage (st : PageState) (fetched : Option String) (now : ℚ)
    (emailEnabled : Bool) : PageState :=
  match fetched with
  | none => st
  | some content =>
    if content = "" then st
    else
      let latest := getLatestPageVersion st.versions
      let oldContent := match latest with
        | some v => v.2
        | none => ""
      let st1 := { st with lastChecked := some now }
      if latest.isSome ∧ oldContent = content then st1
      else
        let changePercentage := calculateChangePercentage oldContent content
        let newId := st1.nextId
        let st2 := { st1 with
          versions := (newId, content) :: st1.versions
          nextId := newId + 1 }
        let st3 := { st2 with
          currentVersionId := some newId
          lastChangeDetected := some now }
        { st3 with
          changeLogs := st3.changeLogs ++
            [⟨changePercentage, oldContent.length, content.length, emailEnabled, now⟩] }

/-! ### Claims C1, C2, C4, C5, C6 -/

/-- C1 (counterexample).  The claim says `last_checked` is advanced even when
the fetch fails; in the code a failed fetch returns before the
`update_tracked_page(page_id, {"last_checked": ...})` call, so a page whose
fetch fails keeps its old `last_checked` (here `5`, not the check time `10`). -/
theorem C1_counterexample :
    (checkSinglePage ⟨[(0, "A")], 1, some 5, none, some 0, []⟩ none 10 true).lastChecked
      = some 5 ∧ (5 : ℚ) ≠ 10 :=
  ⟨rfl, by norm_num⟩

/-- C1 (amended).  `last_checked` is stamped with the check time exactly on
checks whose fetch-and-extract step yields non-empty content; a failed (or
empty) fetch leaves the whole page state, including `last_checked`,
unchanged. -/
theorem C1_amended (st : PageState) (now : ℚ) (emailEnabled : Bool) :
    checkSinglePage st none now emailEnabled = st ∧
    (checkSinglePage st (some "") now emailEnabled = st) ∧
    ∀ content : String, content ≠ "" →
      (checkSinglePage st (some content) now emailEnabled).lastChecked = some now := by
  refine ⟨rfl, by simp [checkSinglePage], fun content hc => ?_⟩
  unfold checkSinglePage
  dsimp only
  rw [if_neg hc]
  split <;> rfl

/-- C1 (witness). -/
theorem C1_witness :
    checkSinglePage ⟨[], 0, none, none, none, []⟩ none 3 true
        = ⟨[], 0, none, none, none, []⟩ ∧
    ("A" ≠ "" ∧
      (checkSinglePage ⟨[], 0, none, none, none, []⟩ (some "A") 3 true).lastChecked
        = some 3) :=
  ⟨(C1_amended ⟨[], 0, none, none, none, []⟩ 3 true).1, by decide,
    (C1_amended ⟨[], 0, none, none, none, []⟩ 3 true).2.2 "A" (by decide)⟩

/-- C2 (counterexample).  `get_latest_page_version` skips the most recent
version and returns `None` when only one version exists, so the
identical-content guard `latest_version and old_content == current_content`
does not fire on the second check: starting from a fresh page, two
consecutive checks that both extract `"A"` store two versions (and two
change records). -/
theorem C2_counterexample :
    (checkSinglePage (checkSinglePage ⟨[], 0, none, none, none, []⟩ (some "A") 1 true)
        (some "A") 2 true).versions.length = 2 ∧
    (checkSinglePage (checkSinglePage ⟨[], 0, none, none, none, []⟩ (some "A") 1 true)
        (some "A") 2 true).changeLogs.length = 2 ∧
    (checkSinglePage ⟨[], 0, none, none, none, []⟩ (some "A") 1 true).versions.length = 1 := by
  refine ⟨rfl, rfl, rfl⟩

/-- C2 (amended).  The deduplication guard compares against the
second-most-recent stored version: when at least two versions exist and the
extracted text is byte-identical to the second-most-recent version's text, no
new `PageVersion` and no `ChangeRecord` is created (only `last_checked`
moves); with fewer than two stored versions a new version is created even if
the text repeats the most recent one. -/
theorem C2_amended (st : PageState) (content : String) (now : ℚ) (email : Bool)
    (hne : content ≠ "") (v0 v1 : Nat × String) (rest : List (Nat × String))
    (hv : st.versions = v0 :: v1 :: rest) (hid : v1.2 = content) :
    checkSinglePage st (some content) now email = { st with lastChecked := some now } := by
  unfold checkSinglePage
  dsimp only
  rw [if_neg hne]
  simp only [hv, getLatestPageVersion, hid]
  simp

/-- C2 (witness). -/
theorem C2_witness :
    checkSinglePage ⟨[(1, "B"), (0, "B")], 2, some 1, none, some 1, []⟩ (some "B") 7 true
      = { (⟨[(1, "B"), (0, "B")], 2, some 1, none, some 1, []⟩ : PageState) with
          lastChecked := some 7 } :=
  C2_amended ⟨[(1, "B"), (0, "B")], 2, some 1, none, some 1, []⟩ "B" 7 true (by decide)
    (1, "B") (0, "B") [] rfl rfl

/-- C4.  The change-percentage special cases: an empty old text gives 100.0
for every new text, and an empty new text with non-empty old text gives
0.0. -/
theorem C4_change_percentage_special_cases :
    (∀ newText : String, calculateChangePercentage "" newText = 100) ∧
    (∀ oldText : String, oldText ≠ "" → calculateChangePercentage oldText "" = 0) := by
  constructor
  · intro newText; rfl
  · intro oldText h
    unfold calculateChangePercentage
    rw [if_neg h, if_pos rfl]

/-- C4 (witness). -/
theorem C4_witness :
    calculateChangePercentage "" "xyz" = 100 ∧
    ("abc" ≠ "" ∧ calculateChangePercentage "abc" "" = 0) :=
  ⟨C4_change_percentage_special_cases.1 "xyz", by decide,
    C4_change_percentage_special_cases.2 "abc" (by decide)⟩

/-- C5.  A 401/403/404 on the first attempt breaks out of the retry loop:
exactly one attempt is made and the call returns `None`; pure
timeout/connection failures are retried up to the full 3-attempt budget and
only then return `None`. -/
theorem C5_client_errors_not_retried (url : String) (st : FetchState)
    (hurl : validUrlFormat url = true) :
    (∀ (outcomes : Nat → AttemptOutcome) (reqDur : Nat → ℚ) (s : Nat),
      s = 401 ∨ s = 403 ∨ s = 404 → outcomes 0 = AttemptOutcome.httpError s →
      (fetchUrl url outcomes reqDur st).1 = none ∧
      (fetchUrl url outcomes reqDur st).2.1 = 1) ∧
    (∀ (outcomes : Nat → AttemptOutcome) (reqDur : Nat → ℚ),
      (∀ i, outcomes i = AttemptOutcome.timeout ∨ outcomes i = AttemptOutcome.connError) →
      (fetchUrl url outcomes reqDur st).1 = none ∧
      (fetchUrl url outcomes reqDur st).2.1 = 3) := by
  constructor
  · intro outcomes reqDur s hs ho
    rcases hs with rfl | rfl | rfl <;>
      simp [fetchUrl, hurl, fetchAttempts, ho]
  · intro outcomes reqDur h
    rcases h 0 with h0 | h0 <;> rcases h 1 with h1 | h1 <;> rcases h 2 with h2 | h2 <;>
      simp [fetchUrl, hurl, fetchAttempts, h0, h1, h2]

/-- C5 (witness). -/
theorem C5_witness :
    ((fetchUrl "https://example.com/a" (fun _ => AttemptOutcome.httpError 404)
        (fun _ => 0) ⟨0, fun _ => none⟩).1 = none ∧
      (fetchUrl "https://example.com/a" (fun _ => AttemptOutcome.httpError 404)
        (fun _ => 0) ⟨0, fun _ => none⟩).2.1 = 1) ∧
    ((fetchUrl "https://example.com/a" (fun _ => AttemptOutcome.timeout)
        (fun _ => 0) ⟨0, fun _ => none⟩).1 = none ∧
      (fetchUrl "https://example.com/a" (fun _ => AttemptOutcome.timeout)
        (fun _ => 0) ⟨0, fun _ => none⟩).2.1 = 3) :=
  ⟨(C5_client_errors_not_retried "https://example.com/a" ⟨0, fun _ => none⟩ (by decide)).1
      (fun _ => AttemptOutcome.httpError 404) (fun _ => 0) 404 (by tauto) rfl,
    (C5_client_errors_not_retried "https://example.com/a" ⟨0, fun _ => none⟩ (by decide)).2
      (fun _ => AttemptOutcome.timeout) (fun _ => 0) (fun _ => Or.inl rfl)⟩

/-- C6 (counterexample).  The source classifies with strict comparisons
(`> 50`, `elif > 20`), so a change ratio of exactly 20 falls into "Minor",
while the claim says a ratio of exactly 20 is moderate. -/
theorem C6_counterexample :
    changeSeverity 20 = "Minor" ∧ "Minor" ≠ "Moderate" := by
  constructor
  · unfold changeSeverity
    rw [if_neg (by norm_num), if_neg (by norm_num)]
  · decide

/-- C6 (amended).  Severity is "Minor" for ratios in (0, 20], "Moderate" for
ratios in (20, 50], and "Major" above 50; in particular 73.2 is "Major", 15
is "Minor", and exactly 20 is "Minor" (not moderate). -/
theorem C6_amended (r : ℚ) :
    (0 < r → r ≤ 20 → changeSeverity r = "Minor") ∧
    (20 < r → r ≤ 50 → changeSeverity r = "Moderate") ∧
    (50 < r → changeSeverity r = "Major") := by
  unfold changeSeverity
  refine ⟨fun h1 h2 => ?_, fun h1 h2 => ?_, fun h1 => ?_⟩
  · rw [if_neg (by linarith), if_neg (by linarith)]
  · rw [if_neg (by linarith), if_pos h1]
  · rw [if_pos h1]

/-- C6 (witness). -/
theorem C6_witness :
    changeSeverity (732 / 10) = "Major" ∧ changeSeverity 15 = "Minor" ∧
    changeSeverity 20 = "Minor" :=
  ⟨(C6_amended (732 / 10)).2.2 (by norm_num),
    (C6_amended 15).1 (by norm_num) (by norm_num),
    (C6_amended 20).1 (by norm_num) (by norm_num)⟩

/-! ### Claims C7 and C8 -/

/-- The selector loop accepts the first candidate passing both strict
thresholds and skips earlier selectors that miss either one. -/
theorem trySelectors_first (pre : List (Option String)) (t : String)
    (post : List (Option String))
    (hpre : ∀ o ∈ pre, ∀ s : String, o = some s →
      ¬(100 < s.length ∧ 50 < (cleanText s).length))
    (ht : 100 < t.length) (hc : 50 < (cleanText t).length) :
    trySelectors (pre ++ some t :: post) = some (cleanText t) := by
  induction pre with
  | nil =>
    simp only [List.nil_append, trySelectors]
    rw [if_pos ht, if_pos hc]
  | cons o rest ih =>
    have hrest : ∀ o ∈ rest, ∀ s : String, o = some s →
        ¬(100 < s.length ∧ 50 < (cleanText s).length) :=
      fun o ho s hs => hpre o (List.mem_cons_of_mem _ ho) s hs
    cases o with
    | none =>
      simpa only [List.cons_append, trySelectors] using ih hrest
    | some s =>
      have hno := hpre (some s) (List.mem_cons_self _ _) s rfl
      simp only [List.cons_append, trySelectors]
      by_cases h1 : 100 < s.length
      · rw [if_pos h1]
        have h2 : ¬ 50 < (cleanText s).length := fun h2 => hno ⟨h1, h2⟩
        rw [if_neg h2]
        exact ih hrest
      · rw [if_neg h1]
        exact ih hrest

set_option maxRecDepth 100000 in
/-- C7 (counterexample).  The source requires strictly more than 100
characters (`len(text) > 100`), so a semantic-selector candidate of exactly
100 characters (cleaning to well over 50) is not accepted: with no other
content the extractor returns `""` instead of that rule's result. -/
theorem C7_counterexample :
    ("Docker requires at least 2GB of memory to run efficiently in production container environments here." : String).length = 100 ∧
    50 < (cleanText "Docker requires at least 2GB of memory to run efficiently in production container environments here.").length ∧
    extractMainContent "x"
      (some ⟨[some "Docker requires at least 2GB of memory to run efficiently in production container environments here."], [], ""⟩) = "" ∧
    "" ≠ cleanText "Docker requires at least 2GB of memory to run efficiently in production container environments here." := by
  refine ⟨by decide, by decide, by decide, by decide⟩

/-- C7 (amended).  The extractor tries the semantic selectors in order and
returns the cleaned text of the first selector whose candidate has strictly
more than 100 characters and cleans to strictly more than 50 characters;
candidates at exactly 100 (or cleaning to exactly 50) fall through to the
next rule. -/
theorem C7_amended (html : String) (d : SoupDoc) (pre : List (Option String))
    (t : String) (post : List (Option String))
    (hhtml : ¬ pyStripL html.data = [])
    (hsel : d.selTexts = pre ++ some t :: post)
    (hpre : ∀ o ∈ pre, ∀ s : String, o = some s →
      ¬(100 < s.length ∧ 50 < (cleanText s).length))
    (ht : 100 < t.length) (hc : 50 < (cleanText t).length) :
    extractMainContent html (some d) = cleanText t := by
  unfold extractMainContent
  rw [if_neg hhtml]
  dsimp only
  rw [hsel, trySelectors_first pre t post hpre ht hc]

set_option maxRecDepth 100000 in
/-- C7 (witness). -/
theorem C7_witness :
    extractMainContent "x"
      (some ⟨[some "Docker requires at least 2GB of memory to run efficiently in production container environments there."], [], ""⟩)
      = cleanText "Docker requires at least 2GB of memory to run efficiently in production container environments there." :=
  C7_amended "x"
    ⟨[some "Docker requires at least 2GB of memory to run efficiently in production container environments there."], [], ""⟩
    [] "Docker requires at least 2GB of memory to run efficiently in production container environments there." []
    (by decide) rfl (fun o ho => absurd ho (List.not_mem_nil o)) (by decide) (by decide)

/-- C8.  The extractor is a total function of the (possibly failed) parse
result: an internal parser failure (the `except` branch, modelled by a
`none` document), an empty or whitespace-only input, and the case where
every layered rule fails all return the empty string. -/
theorem C8_extract_never_raises (html : String) :
    extractMainContent html none = "" ∧
    (∀ d : SoupDoc, pyStripL html.data = [] → extractMainContent html (some d) = "") ∧
    (∀ d : SoupDoc, trySelectors d.selTexts = none →
      ¬ 50 < (cleanText (String.intercalate "\n" (meaningfulTexts d))).length →
      ¬ 50 < (cleanText d.allText).length →
      extractMainContent html (some d) = "") := by
  refine ⟨?_, fun d hempty => ?_, fun d hsel hm hall => ?_⟩
  · unfold extractMainContent
    split <;> rfl
  · unfold extractMainContent
    rw [if_pos hempty]
  · unfold extractMainContent
    by_cases hempty : pyStripL html.data = []
    · rw [if_pos hempty]
    · rw [if_neg hempty]
      dsimp only
      rw [hsel]
      dsimp only
      by_cases ht : meaningfulTexts d = []
      · simp only [ht, ne_eq, not_true_eq_false, if_false, if_neg hall]
      · simp only [ne_eq, ht, not_false_eq_true, if_true, if_neg hm, if_neg hall]

/-- C8 (witness). -/
theorem C8_witness :
    extractMainContent "x" none = "" ∧
    extractMainContent "" (some ⟨[], [], ""⟩) = "" ∧
    extractMainContent "x" (some ⟨[], [], ""⟩) = "" :=
  ⟨(C8_extract_never_raises "x").1,
   (C8_extract_never_raises "").2.1 ⟨[], [], ""⟩ (by decide),
   (C8_extract_never_raises "x").2.2 ⟨[], [], ""⟩ (by decide) (by decide) (by decide)⟩

/-! ### Claim C9 -/

/-- The rate-limit prelude changes only the clock, never the recorded
timestamps. -/
theorem applyRateLimit_delays (st : FetchState) (domain : String) :
    (applyRateLimit st domain).domainDelays = st.domainDelays := by
  unfold applyRateLimit
  cases st.domainDelays domain with
  | none => rfl
  | some t => dsimp only; split <;> rfl

/-- Through the attempt loop, only a successful (allowed content type)
response writes a domain timestamp: on a `None` result the map is unchanged,
and on success the fetched domain's entry is the success time while all other
domains keep their entries. -/
theorem fetchAttempts_delays (outcomes : Nat → AttemptOutcome) (reqDur : Nat → ℚ)
    (domain : String) (maxRetries : Nat) :
    ∀ (fuel attempt : Nat) (st : FetchState),
      ((fetchAttempts outcomes reqDur domain maxRetries fuel attempt st).1 = none →
        (fetchAttempts outcomes reqDur domain maxRetries fuel attempt st).2.2.domainDelays
          = st.domainDelays) ∧
      (∀ text,
        (fetchAttempts outcomes reqDur domain maxRetries fuel attempt st).1 = some text →
        (fetchAttempts outcomes reqDur domain maxRetries fuel attempt st).2.2.domainDelays domain
          = some (fetchAttempts outcomes reqDur domain maxRetries fuel attempt st).2.2.now ∧
        ∀ d, d ≠ domain →
          (fetchAttempts outcomes reqDur domain maxRetries fuel attempt st).2.2.domainDelays d
            = st.domainDelays d) := by
  intro fuel
  induction fuel with
  | zero => intro attempt st; exact ⟨fun _ => rfl, fun text h => by simp [fetchAttempts] at h⟩
  | succ f ih =>
    intro attempt st
    unfold fetchAttempts
    cases ho : outcomes attempt with
    | success ct text =>
      dsimp only
      by_cases hct : allowedContentType ct = true
      · rw [if_pos hct]
        refine ⟨fun h => by simp at h, fun tx h => ⟨by simp, fun d hd => by simp [hd]⟩⟩
      · rw [if_neg hct]
        exact ⟨fun _ => rfl, fun tx h => by simp at h⟩
    | timeout =>
      dsimp only
      split
      · exact ⟨fun h => ((ih (attempt + 1) _).1 h).trans rfl,
          fun tx h => ⟨((ih (attempt + 1) _).2 tx h).1,
            fun d hd => (((ih (attempt + 1) _).2 tx h).2 d hd).trans rfl⟩⟩
      · exact ⟨fun _ => rfl, fun tx h => by simp at h⟩
    | connError =>
      dsimp only
      split
      · exact ⟨fun h => ((ih (attempt + 1) _).1 h).trans rfl,
          fun tx h => ⟨((ih (attempt + 1) _).2 tx h).1,
            fun d hd => (((ih (attempt + 1) _).2 tx h).2 d hd).trans rfl⟩⟩
      · exact ⟨fun _ => rfl, fun tx h => by simp at h⟩
    | reqError =>
      dsimp only
      split
      · exact ⟨fun h => ((ih (attempt + 1) _).1 h).trans rfl,
          fun tx h => ⟨((ih (attempt + 1) _).2 tx h).1,
            fun d hd => (((ih (attempt + 1) _).2 tx h).2 d hd).trans rfl⟩⟩
      · exact ⟨fun _ => rfl, fun tx h => by simp at h⟩
    | httpError status =>
      dsimp only
      split
      · exact ⟨fun _ => rfl, fun tx h => by simp at h⟩
      · split
        · exact ⟨fun h => ((ih (attempt + 1) _).1 h).trans rfl,
            fun tx h => ⟨((ih (attempt + 1) _).2 tx h).1,
              fun d hd => (((ih (attempt + 1) _).2 tx h).2 d hd).trans rfl⟩⟩
        · exact ⟨fun _ => rfl, fun tx h => by simp at h⟩

/-- C9.  If the fetched domain has a recorded last-request time `t` and the
call is issued within one second of it, the rate limiter sleeps so that the
first attempt starts exactly at `t + 1`; moreover the per-domain timestamp
map is updated only by a successful response (a `None` result leaves it
untouched), and on success the fetched domain's entry becomes the success
time while other domains are unaffected. -/
theorem C9_rate_limit (url : String) (st : FetchState) (t : ℚ)
    (outcomes : Nat → AttemptOutcome) (reqDur : Nat → ℚ)
    (hurl : validUrlFormat url = true)
    (hdel : st.domainDelays (urlDomain url) = some t)
    (hmono : t ≤ st.now) (hwithin : st.now < t + 1) :
    (applyRateLimit st (urlDomain url)).now = t + 1 ∧
    ((fetchUrl url outcomes reqDur st).1 = none →
      (fetchUrl url outcomes reqDur st).2.2.domainDelays = st.domainDelays) ∧
    (∀ text, (fetchUrl url outcomes reqDur st).1 = some text →
      (fetchUrl url outcomes reqDur st).2.2.domainDelays (urlDomain url)
        = some (fetchUrl url outcomes reqDur st).2.2.now ∧
      ∀ d, d ≠ urlDomain url →
        (fetchUrl url outcomes reqDur st).2.2.domainDelays d = st.domainDelays d) := by
  have hrl : (applyRateLimit st (urlDomain url)).now = t + 1 := by
    unfold applyRateLimit
    rw [hdel]
    dsimp only
    rw [if_pos (by linarith)]
    ring
  have hdeq := applyRateLimit_delays st (urlDomain url)
  refine ⟨hrl, ?_, ?_⟩
  · intro h
    unfold fetchUrl at *
    rw [if_pos hurl] at *
    exact ((fetchAttempts_delays outcomes reqDur (urlDomain url) 3 3 0
      (applyRateLimit st (urlDomain url))).1 h).trans hdeq
  · intro text h
    unfold fetchUrl at *
    rw [if_pos hurl] at *
    refine ⟨((fetchAttempts_delays outcomes reqDur (urlDomain url) 3 3 0
      (applyRateLimit st (urlDomain url))).2 text h).1, fun d hd => ?_⟩
    rw [(((fetchAttempts_delays outcomes reqDur (urlDomain url) 3 3 0
      (applyRateLimit st (urlDomain url))).2 text h).2 d hd)]
    rw [hdeq]

/-- C9 (witness). -/
theorem C9_witness :
    (applyRateLimit ⟨1 / 2, fun d => if d = "a.com" then some 0 else none⟩
        (urlDomain "http://a.com/p")).now = 0 + 1 ∧
    ((fetchUrl "http://a.com/p" (fun _ => AttemptOutcome.timeout) (fun _ => 0)
        ⟨1 / 2, fun d => if d = "a.com" then some 0 else none⟩).1 = none →
      (fetchUrl "http://a.com/p" (fun _ => AttemptOutcome.timeout) (fun _ => 0)
        ⟨1 / 2, fun d => if d = "a.com" then some 0 else none⟩).2.2.domainDelays
        = (⟨1 / 2, fun d => if d = "a.com" then some 0 else none⟩ : FetchState).domainDelays) ∧
    (∀ text,
      (fetchUrl "http://a.com/p" (fun _ => AttemptOutcome.timeout) (fun _ => 0)
        ⟨1 / 2, fun d => if d = "a.com" then some 0 else none⟩).1 = some text →
      (fetchUrl "http://a.com/p" (fun _ => AttemptOutcome.timeout) (fun _ => 0)
        ⟨1 / 2, fun d => if d = "a.com" then some 0 else none⟩).2.2.domainDelays
          (urlDomain "http://a.com/p")
        = some (fetchUrl "http://a.com/p" (fun _ => AttemptOutcome.timeout) (fun _ => 0)
            ⟨1 / 2, fun d => if d = "a.com" then some 0 else none⟩).2.2.now ∧
      ∀ d, d ≠ urlDomain "http://a.com/p" →
        (fetchUrl "http://a.com/p" (fun _ => AttemptOutcome.timeout) (fun _ => 0)
          ⟨1 / 2, fun d => if d = "a.com" then some 0 else none⟩).2.2.domainDelays d
          = (⟨1 / 2, fun d => if d = "a.com" then some 0 else none⟩ : FetchState).domainDelays d) :=
  C9_rate_limit "http://a.com/p" ⟨1 / 2, fun d => if d = "a.com" then some 0 else none⟩ 0
    (fun _ => AttemptOutcome.timeout) (fun _ => 0) (by decide)
    (by decide) (by norm_num) (by norm_num)

/-! ### Claim C10 -/

theorem dropWhile_head_false (p : Char → Bool) :
    ∀ (l : List Char) (c : Char) (r : List Char),
      l.dropWhile p = c :: r → p c = false := by
  intro l
  induction l with
  | nil => intro c r h; simp [List.dropWhile] at h
  | cons x xs ih =>
    intro c r h
    rw [List.dropWhile_cons] at h
    by_cases hx : p x = true
    · rw [if_pos hx] at h
      exact ih c r h
    · rw [if_neg hx] at h
      injection h with h1 h2
      subst h1
      simpa using hx

theorem pyStripL_head (l : List Char) (h : pyStripL l ≠ []) :
    ∃ c r, pyStripL l = c :: r ∧ pyIsSpace c = false := by
  have hps : pyStripL l
      = ((l.dropWhile pyIsSpace).reverse.dropWhile pyIsSpace).reverse := rfl
  have hdec : (l.dropWhile pyIsSpace).reverse.takeWhile pyIsSpace ++
      (l.dropWhile pyIsSpace).reverse.dropWhile pyIsSpace
      = (l.dropWhile pyIsSpace).reverse :=
    List.takeWhile_append_dropWhile pyIsSpace (l.dropWhile pyIsSpace).reverse
  cases hrr : ((l.dropWhile pyIsSpace).reverse.dropWhile pyIsSpace).reverse with
  | nil => exact absurd (hps.trans hrr) h
  | cons c rest =>
    refine ⟨c, rest, hps.trans hrr, ?_⟩
    have h3 : List.dropWhile pyIsSpace l =
        ((l.dropWhile pyIsSpace).reverse.dropWhile pyIsSpace).reverse ++
        ((l.dropWhile pyIsSpace).reverse.takeWhile pyIsSpace).reverse := by
      have h4 := congrArg List.reverse hdec
      rw [List.reverse_append, List.reverse_reverse] at h4
      exact h4.symm
    rw [hrr] at h3
    exact dropWhile_head_false pyIsSpace l c _ h3

theorem pyStripL_last (l : List Char) (h : pyStripL l ≠ []) :
    ∃ i y, pyStripL l = i ++ [y] ∧ pyIsSpace y = false := by
  have hps : pyStripL l
      = ((l.dropWhile pyIsSpace).reverse.dropWhile pyIsSpace).reverse := rfl
  cases hrr : (l.dropWhile pyIsSpace).reverse.dropWhile pyIsSpace with
  | nil => exact absurd (by rw [hps, hrr]; rfl) h
  | cons y rest =>
    refine ⟨rest.reverse, y, ?_, dropWhile_head_false pyIsSpace _ y rest hrr⟩
    rw [hps, hrr]
    simp

theorem mem_pyStripL (l : List Char) (x : Char) (hx : x ∈ pyStripL l) : x ∈ l := by
  unfold pyStripL at hx
  rw [List.mem_reverse] at hx
  have h1 := (List.dropWhile_sublist (l := (l.dropWhile pyIsSpace).reverse)
    (p := pyIsSpace)).mem hx
  rw [List.mem_reverse] at h1
  exact (List.dropWhile_sublist (l := l) (p := pyIsSpace)).mem h1

theorem pyStripL_eq_self (l : List Char)
    (h1 : ∃ c r, l = c :: r ∧ pyIsSpace c = false)
    (h2 : ∃ i y, l = i ++ [y] ∧ pyIsSpace y = false) :
    pyStripL l = l := by
  obtain ⟨c, r, rfl, hc⟩ := h1
  obtain ⟨i, y, he, hy⟩ := h2
  unfold pyStripL
  rw [List.dropWhile_cons, if_neg (by simp [hc])]
  have hrev : (c :: r).reverse.dropWhile pyIsSpace = (c :: r).reverse := by
    rw [he, List.reverse_append]
    simp only [List.reverse_cons, List.reverse_nil, List.nil_append,
      List.singleton_append]
    rw [List.dropWhile_cons, if_neg (by simp [hy])]
  rw [hrev, List.reverse_reverse]

theorem collapseRunsAux_split (c x : Char) (thr rep : Nat) (hx : ¬ x = c) :
    ∀ (l1 l2 : List Char) (run : Nat),
      collapseRunsAux c thr rep (l1 ++ x :: l2) run
        = collapseRunsAux c thr rep l1 run ++ x :: collapseRunsAux c thr rep l2 0 := by
  intro l1
  induction l1 with
  | nil =>
    intro l2 run
    simp only [List.nil_append, collapseRunsAux]
    rw [if_neg hx]
  | cons y ys ih =>
    intro l2 run
    simp only [List.cons_append, collapseRunsAux, List.append_eq]
    by_cases hy : y = c
    · rw [if_pos hy, if_pos hy, ih]
    · rw [if_neg hy, if_neg hy, ih]
      simp [List.append_assoc]

theorem collapseRunsAux_free (c : Char) (thr rep : Nat) (hthr : 0 < thr) :
    ∀ (p l : List Char), c ∉ p →
      collapseRunsAux c thr rep (p ++ l) 0 = p ++ collapseRunsAux c thr rep l 0 := by
  intro p
  induction p with
  | nil => intro l _; simp
  | cons y ys ih =>
    intro l h
    have hy : ¬ y = c := fun he => h (he ▸ List.mem_cons_self y ys)
    simp only [List.cons_append, collapseRunsAux, List.append_eq]
    rw [if_neg hy, ih l (fun hm => h (List.mem_cons_of_mem _ hm))]
    rw [if_neg (by omega : ¬ thr ≤ 0)]
    simp

theorem collapseRunsAux_free_nil (c : Char) (thr rep : Nat) (hthr : 0 < thr)
    (p : List Char) (hp : c ∉ p) :
    collapseRunsAux c thr rep p 0 = p := by
  have h := collapseRunsAux_free c thr rep hthr p [] hp
  simpa [collapseRunsAux, Nat.not_le.mpr hthr] using h

theorem collapseNl_join_pos :
    ∀ (ps : List (List Char)), (∀ p ∈ ps, p ≠ [] ∧ '\n' ∉ p) → ps ≠ [] →
      collapseRunsAux '\n' 3 2 (joinNlC ps) 1 = '\n' :: joinNlC ps := by
  intro ps
  induction ps with
  | nil => intro _ h; exact absurd rfl h
  | cons q rest ih =>
    intro hp _
    obtain ⟨hq1, hq2⟩ := hp q (List.mem_cons_self q rest)
    obtain ⟨y, q', rfl⟩ := List.exists_cons_of_ne_nil hq1
    have hy : ¬ y = '\n' := fun he => hq2 (he ▸ List.mem_cons_self y q')
    have hq2' : '\n' ∉ q' := fun hm => hq2 (List.mem_cons_of_mem _ hm)
    cases rest with
    | nil =>
      show collapseRunsAux '\n' 3 2 (y :: q') 1 = '\n' :: (y :: q')
      simp only [collapseRunsAux]
      rw [if_neg hy, collapseRunsAux_free_nil '\n' 3 2 (by norm_num) q' hq2']
      rfl
    | cons r rs =>
      show collapseRunsAux '\n' 3 2 (y :: (q' ++ '\n' :: joinNlC (r :: rs))) 1
        = '\n' :: ((y :: q') ++ '\n' :: joinNlC (r :: rs))
      simp only [collapseRunsAux]
      rw [if_neg hy]
      rw [collapseRunsAux_free '\n' 3 2 (by norm_num) q' _ hq2']
      have hstep : collapseRunsAux '\n' 3 2 ('\n' :: joinNlC (r :: rs)) 0
          = collapseRunsAux '\n' 3 2 (joinNlC (r :: rs)) 1 := by
        simp [collapseRunsAux]
      rw [hstep, ih (fun p hm => hp p (List.mem_cons_of_mem _ hm)) (by simp)]
      rfl

theorem collapseNewlines_join (ps : List (List Char))
    (hp : ∀ p ∈ ps, p ≠ [] ∧ '\n' ∉ p) :
    collapseNewlines (joinNlC ps) = joinNlC ps := by
  cases ps with
  | nil => rfl
  | cons q rest =>
    obtain ⟨hq1, hq2⟩ := hp q (List.mem_cons_self q rest)
    cases rest with
    | nil =>
      show collapseRunsAux '\n' 3 2 q 0 = q
      exact collapseRunsAux_free_nil '\n' 3 2 (by norm_num) q hq2
    | cons r rs =>
      show collapseRunsAux '\n' 3 2 (q ++ '\n' :: joinNlC (r :: rs)) 0
        = q ++ '\n' :: joinNlC (r :: rs)
      rw [collapseRunsAux_free '\n' 3 2 (by norm_num) q _ hq2]
      have hstep : collapseRunsAux '\n' 3 2 ('\n' :: joinNlC (r :: rs)) 0
          = collapseRunsAux '\n' 3 2 (joinNlC (r :: rs)) 1 := by
        simp [collapseRunsAux]
      rw [hstep, collapseNl_join_pos (r :: rs)
        (fun p hm => hp p (List.mem_cons_of_mem _ hm)) (by simp)]

theorem collapseSpaces_join :
    ∀ ps : List (List Char),
      collapseSpaces (joinNlC ps) = joinNlC (ps.map collapseSpaces) := by
  intro ps
  induction ps with
  | nil => rfl
  | cons q rest ih =>
    cases rest with
    | nil => rfl
    | cons r rs =>
      show collapseRunsAux ' ' 2 1 (q ++ '\n' :: joinNlC (r :: rs)) 0
        = collapseSpaces q ++ '\n' :: joinNlC ((r :: rs).map collapseSpaces)
      rw [collapseRunsAux_split ' ' '\n' 2 1 (by decide) q (joinNlC (r :: rs)) 0]
      rw [show collapseRunsAux ' ' 2 1 (joinNlC (r :: rs)) 0
        = collapseSpaces (joinNlC (r :: rs)) from rfl, ih]
      rfl

theorem collapseSpaces_cons_ne (y : Char) (l : List Char) (hy : ¬ y = ' ') :
    collapseSpaces (y :: l) = y :: collapseRunsAux ' ' 2 1 l 0 := by
  show collapseRunsAux ' ' 2 1 (y :: l) 0 = _
  simp only [collapseRunsAux]
  rw [if_neg hy]
  rfl

theorem collapseSpaces_concat_ne (i : List Char) (y : Char) (hy : ¬ y = ' ') :
    collapseSpaces (i ++ [y]) = collapseRunsAux ' ' 2 1 i 0 ++ [y] := by
  show collapseRunsAux ' ' 2 1 (i ++ y :: []) 0 = _
  rw [collapseRunsAux_split ' ' y 2 1 hy i [] 0]
  rfl

theorem mem_collapseRunsAux (c : Char) (thr rep : Nat) :
    ∀ (l : List Char) (run : Nat) (x : Char),
      x ∈ collapseRunsAux c thr rep l run → x = c ∨ x ∈ l := by
  intro l
  induction l with
  | nil =>
    intro run x hx
    left
    exact List.eq_of_mem_replicate hx
  | cons y ys ih =>
    intro run x hx
    simp only [collapseRunsAux] at hx
    by_cases hy : y = c
    · rw [if_pos hy] at hx
      rcases ih _ _ hx with h | h
      · exact Or.inl h
      · exact Or.inr (List.mem_cons_of_mem _ h)
    · rw [if_neg hy] at hx
      rcases List.mem_append.mp hx with h | h
      · exact Or.inl (List.eq_of_mem_replicate h)
      · rcases List.mem_cons.mp h with h | h
        · exact Or.inr (h ▸ List.mem_cons_self y ys)
        · rcases ih _ _ h with h2 | h2
          · exact Or.inl h2
          · exact Or.inr (List.mem_cons_of_mem _ h2)

theorem pySplitNl_free : ∀ (p : List Char), '\n' ∉ p → pySplitNl p = [p] := by
  intro p
  induction p with
  | nil => intro _; rfl
  | cons c cs ih =>
    intro h
    have hc : ¬ c = '\n' := fun he => h (he ▸ List.mem_cons_self c cs)
    unfold pySplitNl
    rw [if_neg hc, ih (fun hm => h (List.mem_cons_of_mem _ hm))]

theorem pySplitNl_append (p : List Char) (l : List Char) (hp : '\n' ∉ p) :
    pySplitNl (p ++ '\n' :: l) = p :: pySplitNl l := by
  induction p with
  | nil =>
    show pySplitNl ('\n' :: l) = [] :: pySplitNl l
    rw [pySplitNl]
    rw [if_pos rfl]
  | cons c cs ih =>
    have hc : ¬ c = '\n' := fun he => hp (he ▸ List.mem_cons_self c cs)
    show pySplitNl (c :: (cs ++ '\n' :: l)) = (c :: cs) :: pySplitNl l
    rw [pySplitNl]
    rw [if_neg hc, ih (fun hm => hp (List.mem_cons_of_mem _ hm))]

theorem pySplitNl_join :
    ∀ (ps : List (List Char)), ps ≠ [] → (∀ p ∈ ps, '\n' ∉ p) →
      pySplitNl (joinNlC ps) = ps := by
  intro ps
  induction ps with
  | nil => intro h _; exact absurd rfl h
  | cons q rest ih =>
    intro _ hfree
    cases rest with
    | nil => exact pySplitNl_free q (hfree q (List.mem_cons_self q []))
    | cons r rs =>
      show pySplitNl (q ++ '\n' :: joinNlC (r :: rs)) = q :: r :: rs
      rw [pySplitNl_append q _ (hfree q (List.mem_cons_self q _)),
        ih (by simp) (fun p hm => hfree p (List.mem_cons_of_mem _ hm))]

theorem cleanStep_cases (acc : List (List Char)) (raw : List Char) :
    cleanStep acc raw = acc ∨
    (cleanStep acc raw = acc ++ [pyStripL raw] ∧ pyStripL raw ∉ acc ∧
      10 ≤ (pyStripL raw).length ∧ pyStripL raw ≠ []) := by
  unfold cleanStep
  dsimp only
  by_cases h1 : pyStripL raw = []
  · left; rw [if_pos h1]
  rw [if_neg h1]
  by_cases h2 : (pyStripL raw).length < 10
  · left; rw [if_pos h2]
  rw [if_neg h2]
  by_cases h3 : pyStripL raw ∈ acc
  · left; rw [if_pos h3]
  rw [if_neg h3]
  by_cases h4 : isMeaningfulText (String.mk (pyStripL raw)) = true
  · right; exact ⟨by rw [if_pos h4], h3, by omega, h1⟩
  · left; rw [if_neg h4]

theorem cleanKept_go :
    ∀ (raws : List (List Char)), (∀ raw ∈ raws, '\n' ∉ raw) →
    ∀ acc : List (List Char),
      (∀ l ∈ acc, 10 ≤ l.length ∧ l ≠ [] ∧ '\n' ∉ l ∧ ∃ raw, l = pyStripL raw) →
      acc.Nodup →
      (∀ l ∈ raws.foldl cleanStep acc,
        10 ≤ l.length ∧ l ≠ [] ∧ '\n' ∉ l ∧ ∃ raw, l = pyStripL raw) ∧
      (raws.foldl cleanStep acc).Nodup := by
  intro raws
  induction raws with
  | nil => intro _ acc h1 h2; exact ⟨h1, h2⟩
  | cons raw rest ih =>
    intro hraws acc h1 h2
    have hnl : '\n' ∉ raw := hraws raw (List.mem_cons_self raw rest)
    have hrest : ∀ r ∈ rest, '\n' ∉ r := fun r hr => hraws r (List.mem_cons_of_mem _ hr)
    rw [List.foldl_cons]
    rcases cleanStep_cases acc raw with he | ⟨he, hnm, hlen, hne⟩
    · rw [he]; exact ih hrest acc h1 h2
    · rw [he]
      refine ih hrest (acc ++ [pyStripL raw]) ?_ ?_
      · intro l hl
        rcases List.mem_append.mp hl with h | h
        · exact h1 l h
        · have heq : l = pyStripL raw := by simpa using h
          subst heq
          exact ⟨hlen, hne, fun hmem => hnl (mem_pyStripL raw '\n' hmem), raw, rfl⟩
      · rw [List.nodup_append]
        exact ⟨h2, List.nodup_singleton _, by simpa using hnm⟩

theorem cleanKeptLines_inv (raws : List (List Char))
    (hraws : ∀ raw ∈ raws, '\n' ∉ raw) :
    (∀ l ∈ cleanKeptLines raws,
      10 ≤ l.length ∧ l ≠ [] ∧ '\n' ∉ l ∧ ∃ raw, l = pyStripL raw) ∧
    (cleanKeptLines raws).Nodup :=
  cleanKept_go raws hraws [] (by simp) List.nodup_nil

theorem pySplitNl_pieces_free : ∀ (l : List Char), ∀ p ∈ pySplitNl l, '\n' ∉ p := by
  intro l
  induction l with
  | nil =>
    intro p hp
    simp only [pySplitNl, List.mem_singleton] at hp
    subst hp
    simp
  | cons c cs ih =>
    intro p hp
    unfold pySplitNl at hp
    by_cases hc : c = '\n'
    · rw [if_pos hc] at hp
      rcases List.mem_cons.mp hp with h | h
      · subst h; simp
      · exact ih p h
    · rw [if_neg hc] at hp
      cases hsplit : pySplitNl cs with
      | nil =>
        rw [hsplit] at hp
        have : p = [c] := by simpa using hp
        subst this
        simp only [List.mem_singleton]
        exact fun he => hc he.symm
      | cons hd tl =>
        rw [hsplit] at hp
        rcases List.mem_cons.mp hp with h | h
        · subst h
          intro hmem
          rcases List.mem_cons.mp hmem with h2 | h2
          · exact hc h2.symm
          · exact ih hd (hsplit ▸ List.mem_cons_self hd tl) h2
        · exact ih p (hsplit ▸ List.mem_cons_of_mem _ h)

/-- C10 (counterexample).  The final `re.sub(r' {2,}', ' ', ...)` of
`clean_text` runs after the 10-character and duplicate filters, so it can
shrink a kept line below 10 characters: the 16-character input line
`"a.      b      c"` survives every filter and is then collapsed to the
6-character output line `"a. b c"`, refuting "every line of the output has
at least 10 characters". -/
theorem C10_counterexample :
    cleanText "a.      b      c" = "a. b c" ∧
    pySplitNl (cleanText "a.      b      c").data = ["a. b c".data] ∧
    ¬ 10 ≤ ("a. b c" : String).length := by
  refine ⟨by decide, by decide, by decide⟩

/-- C10 (amended).  The length, non-emptiness and no-duplicate invariants
hold for the kept lines *before* the final space collapsing: every kept line
has at least 10 characters, is non-empty, and the kept list has no
duplicates; the blank-line collapsing step is the identity on the joined
text (it can never fire); and the final output consists of the
space-collapsed kept lines, none of which is empty — but space collapsing
may shrink lines below 10 characters and can make two distinct kept lines
coincide. -/
theorem C10_amended (text : String) :
    (∀ l ∈ cleanKeptLines (pySplitNl text.data), 10 ≤ l.length ∧ l ≠ []) ∧
    (cleanKeptLines (pySplitNl text.data)).Nodup ∧
    collapseNewlines (joinNlC (cleanKeptLines (pySplitNl text.data)))
      = joinNlC (cleanKeptLines (pySplitNl text.data)) ∧
    (cleanKeptLines (pySplitNl text.data) ≠ [] →
      pySplitNl (cleanText text).data
        = (cleanKeptLines (pySplitNl text.data)).map collapseSpaces ∧
      ∀ l ∈ pySplitNl (cleanText text).data, l ≠ []) := by
  obtain ⟨hmem, hnd⟩ := cleanKeptLines_inv (pySplitNl text.data)
    (pySplitNl_pieces_free text.data)
  have hgood : ∀ p ∈ cleanKeptLines (pySplitNl text.data), p ≠ [] ∧ '\n' ∉ p :=
    fun p hp => ⟨(hmem p hp).2.1, (hmem p hp).2.2.1⟩
  refine ⟨fun l hl => ⟨(hmem l hl).1, (hmem l hl).2.1⟩, hnd,
    collapseNewlines_join _ hgood, fun hne => ?_⟩
  -- facts about each kept line after space collapsing
  have hcs : ∀ l ∈ cleanKeptLines (pySplitNl text.data),
      (∃ c r, collapseSpaces l = c :: r ∧ pyIsSpace c = false) ∧
      (∃ i y, collapseSpaces l = i ++ [y] ∧ pyIsSpace y = false) ∧
      '\n' ∉ collapseSpaces l := by
    intro l hl
    obtain ⟨raw, hraw⟩ := (hmem l hl).2.2.2
    have hlne : pyStripL raw ≠ [] := hraw ▸ (hmem l hl).2.1
    obtain ⟨c, r, hcr, hc⟩ := pyStripL_head raw hlne
    obtain ⟨i, y, hiy, hy⟩ := pyStripL_last raw hlne
    have hcne : ¬ c = ' ' := fun he => by simp [he, pyIsSpace] at hc
    have hyne : ¬ y = ' ' := fun he => by simp [he, pyIsSpace] at hy
    refine ⟨⟨c, collapseRunsAux ' ' 2 1 r 0, ?_, hc⟩,
      ⟨collapseRunsAux ' ' 2 1 i 0, y, ?_, hy⟩, ?_⟩
    · rw [hraw, hcr]
      exact collapseSpaces_cons_ne c r hcne
    · rw [hraw, hiy]
      exact collapseSpaces_concat_ne i y hyne
    · intro hmem2
      rcases mem_collapseRunsAux ' ' 2 1 l 0 '\n' hmem2 with h | h
      · exact absurd h (by decide)
      · exact (hmem l hl).2.2.1 h
  -- the output is the space-collapsed join, with the outer strip a no-op
  have hout : (cleanText text).data
      = joinNlC ((cleanKeptLines (pySplitNl text.data)).map collapseSpaces) := by
    have htext : text ≠ "" := by
      intro he
      apply hne
      rw [he]
      rfl
    show (cleanText text).data = _
    unfold cleanText
    rw [if_neg htext]
    show pyStripL (collapseSpaces (collapseNewlines
      (joinNlC (cleanKeptLines (pySplitNl text.data))))) = _
    rw [collapseNewlines_join _ hgood, collapseSpaces_join]
    -- strip is the identity: the join starts and ends with non-space chars
    obtain ⟨k0, ks, hks⟩ := List.exists_cons_of_ne_nil hne
    refine pyStripL_eq_self _ ?_ ?_
    · -- head
      obtain ⟨c, r, hcr, hc⟩ := (hcs k0 (hks ▸ List.mem_cons_self k0 ks)).1
      rw [hks]
      cases ks with
      | nil => exact ⟨c, r, by simpa using hcr, hc⟩
      | cons k1 ks' =>
        exact ⟨c, r ++ '\n' :: joinNlC ((k1 :: ks').map collapseSpaces),
          by simp [joinNlC, hcr], hc⟩
    · -- last element of the kept list ends with a non-space char
      have hlast : ∀ ps : List (List Char), ps ≠ [] →
          (∀ p ∈ ps, ∃ i y, collapseSpaces p = i ++ [y] ∧ pyIsSpace y = false) →
          ∃ i y, joinNlC (ps.map collapseSpaces) = i ++ [y] ∧ pyIsSpace y = false := by
        intro ps
        induction ps with
        | nil => intro h _; exact absurd rfl h
        | cons q rest ihl =>
          intro _ hall
          cases rest with
          | nil => simpa [joinNlC] using hall q (List.mem_cons_self q [])
          | cons r rs =>
            obtain ⟨i, y, hiy, hy⟩ := ihl (by simp)
              (fun p hp => hall p (List.mem_cons_of_mem _ hp))
            refine ⟨collapseSpaces q ++ '\n' :: i, y, ?_, hy⟩
            show collapseSpaces q ++ '\n' :: joinNlC ((r :: rs).map collapseSpaces)
              = (collapseSpaces q ++ '\n' :: i) ++ [y]
            rw [hiy]
            simp
      exact hlast _ hne (fun p hp => (hcs p hp).2.1)
  constructor
  · rw [hout]
    refine pySplitNl_join _ (by simpa using hne) ?_
    intro p hp
    obtain ⟨l, hl, rfl⟩ := List.mem_map.mp hp
    exact (hcs l hl).2.2
  · intro l hl
    rw [hout, pySplitNl_join _ (by simpa using hne)
      (fun p hp => by
        obtain ⟨l2, hl2, rfl⟩ := List.mem_map.mp hp
        exact (hcs l2 hl2).2.2)] at hl
    obtain ⟨l2, hl2, rfl⟩ := List.mem_map.mp hl
    obtain ⟨c, r, hcr, _⟩ := (hcs l2 hl2).1
    rw [hcr]
    simp

/-- C10 (witness). -/
theorem C10_witness :
    pySplitNl (cleanText "Python 3.12 is faster.").data
      = (cleanKeptLines (pySplitNl "Python 3.12 is faster.".data)).map collapseSpaces ∧
    ∀ l ∈ pySplitNl (cleanText "Python 3.12 is faster.").data, l ≠ [] :=
  (C10_amended "Python 3.12 is faster.").2.2.2 (by decide)

/-! ### Claim C3: `SequenceMatcher` on two equal sequences

The scheduler's change percentage and the diff service both run
`SequenceMatcher(None, x, x)` when a text is compared with itself.  With
`isjunk=None` the junk set is empty, so the two non-junk extension loops
always extend over equal elements; the dynamic program's best block is shown
to lie on the diagonal (the key invariant), hence `find_longest_match` on the
full symmetric window returns the whole range, the matching blocks are
`[(0,0,n)]` plus the sentinel, the similarity is exactly 1, and the opcode
list is a single `equal`. -/

theorem positionsOf_mem {α : Type} [DecidableEq α] (b : List α) (x : α) (j : Nat) :
    j ∈ positionsOf b x ↔ j < b.length ∧ b.get? j = some x := by
  unfold positionsOf
  rw [List.mem_filter, List.mem_range]
  simp only [decide_eq_true_eq]

theorem seqB2j_eq {α : Type} [DecidableEq α] (b : List α) (x : α) :
    seqB2j b x = [] ∨ seqB2j b x = positionsOf b x := by
  unfold seqB2j
  dsimp only
  split
  · exact Or.inl rfl
  · exact Or.inr rfl

theorem seqB2j_sound {α : Type} [DecidableEq α] (b : List α) (x : α) (j : Nat)
    (h : j ∈ seqB2j b x) : j < b.length ∧ b.get? j = some x := by
  rcases seqB2j_eq b x with he | he
  · rw [he] at h
    exact absurd h (List.not_mem_nil j)
  · rw [he] at h
    exact (positionsOf_mem b x j).mp h

theorem length_lt_of_get?_eq_some {α : Type} (l : List α) (j : Nat) (x : α)
    (h : l.get? j = some x) : j < l.length := by
  by_contra hc
  rw [List.get?_eq_none.mpr (Nat.le_of_not_lt hc)] at h
  exact Option.noConfusion h

theorem seqB2j_complete {α : Type} [DecidableEq α] (b : List α) (x : α) (j : Nat)
    (hj : b.get? j = some x) (hne : seqB2j b x ≠ []) : j ∈ seqB2j b x := by
  rcases seqB2j_eq b x with he | he
  · exact absurd he hne
  · rw [he]
    exact (positionsOf_mem b x j).mpr ⟨length_lt_of_get?_eq_some b j x hj, hj⟩

theorem seqB2j_pairwise {α : Type} [DecidableEq α] (b : List α) (x : α) :
    List.Pairwise (· < ·) (seqB2j b x) := by
  rcases seqB2j_eq b x with he | he <;> rw [he]
  · exact List.Pairwise.nil
  · exact List.Pairwise.sublist (List.filter_sublist _) (List.pairwise_lt_range _)

theorem dchain_eq {α : Type} [DecidableEq α] (a : List α) (b2j : α → List Nat)
    (c : Nat) :
    dchain a b2j c
      = if diagOnB a b2j c then (if c = 0 then 0 else dchain a b2j (c - 1)) + 1
        else 0 := by
  cases c with
  | zero => simp [dchain]
  | succ m => simp [dchain]

theorem dchain_le {α : Type} [DecidableEq α] (a : List α) (b2j : α → List Nat) :
    ∀ c, dchain a b2j c ≤ c + 1 := by
  intro c
  induction c with
  | zero => rw [dchain_eq]; split <;> simp
  | succ m ih => rw [dchain_eq]; split <;> simp <;> omega

theorem dpJLoop_preserve (prev : Nat → Nat) (blo bhi i : Nat) :
    ∀ (js : List Nat) (cur : Nat → Nat) (best : Nat × Nat × Nat) (c : Nat),
      (∀ j ∈ js, j ≠ c) →
      (dpJLoop prev blo bhi i js cur best).1 c = cur c := by
  intro js
  induction js with
  | nil => intro cur best c _; rfl
  | cons j tail ih =>
    intro cur best c hc
    unfold dpJLoop
    by_cases h1 : j < blo
    · rw [if_pos h1]
      exact ih cur best c (fun j2 h2 => hc j2 (List.mem_cons_of_mem _ h2))
    rw [if_neg h1]
    by_cases h2 : bhi ≤ j
    · rw [if_pos h2]
    rw [if_neg h2]
    dsimp only
    rw [ih _ _ c (fun j2 hj2 => hc j2 (List.mem_cons_of_mem _ hj2))]
    rw [if_neg (fun he : c = j => hc j (List.mem_cons_self j tail) he.symm)]

theorem dpJLoop_self {α : Type} [DecidableEq α] (a : List α) (b2j : α → List Nat)
    (HS : ∀ x j, j ∈ b2j x → j < a.length ∧ a.get? j = some x)
    (r : Nat) (xr : α) (hr : a.get? r = some xr) (prev : Nat → Nat) :
    ∀ (js : List Nat) (cur : Nat → Nat) (best : Nat × Nat × Nat),
      (∀ j ∈ js, j ∈ b2j xr) →
      List.Pairwise (· < ·) js →
      (∀ c, prev c ≤ dchain a b2j c) →
      (∀ c, prev c ≤ (if r = 0 then 0 else prev (r - 1))) →
      best.1 = best.2.1 →
      (∀ c, c < r → dchain a b2j c ≤ best.2.2) →
      best.1 + best.2.2 ≤ r + 1 →
      (r ∈ js ∨ (if r = 0 then 0 else prev (r - 1)) + 1 ≤ best.2.2 ∨
        (∀ j ∈ js, j < r)) →
      (∀ c, cur c ≤ dchain a b2j c) →
      (∀ c, cur c ≤ (if r = 0 then 0 else prev (r - 1)) + 1) →
      ∀ curO bestO, dpJLoop prev 0 a.length r js cur best = (curO, bestO) →
        bestO.1 = bestO.2.1 ∧ best.2.2 ≤ bestO.2.2 ∧
        bestO.1 + bestO.2.2 ≤ r + 1 ∧
        (∀ c, c < r → dchain a b2j c ≤ bestO.2.2) ∧
        (∀ c, curO c ≤ dchain a b2j c) ∧
        (∀ c, curO c ≤ (if r = 0 then 0 else prev (r - 1)) + 1) ∧
        (r ∈ js → (if r = 0 then 0 else prev (r - 1)) + 1 ≤ bestO.2.2 ∧
          curO r = (if r = 0 then 0 else prev (r - 1)) + 1) := by
  intro js
  induction js with
  | nil =>
    intro cur best _ _ _ _ hB1 hB2 hB6 _ hC3 hC4 curO bestO hout
    injection hout with h1 h2
    subst h1
    subst h2
    exact ⟨hB1, Nat.le_refl _, by omega, hB2, hC3, hC4,
      fun hmem => absurd hmem (List.not_mem_nil r)⟩
  | cons j tail ih =>
    intro cur best hsub hsort hP3 hP4 hB1 hB2 hB6 hPH hC3 hC4 curO bestO hout
    have hjmem : j ∈ b2j xr := hsub j (List.mem_cons_self j tail)
    obtain ⟨hjlt, hjget⟩ := HS xr j hjmem
    have hdiagj : diagOnB a b2j j = true := by
      unfold diagOnB
      rw [hjget]
      simpa using hjmem
    -- the computed chain value at column j
    have hk_le_kr : (if j = 0 then 0 else prev (j - 1)) + 1
        ≤ (if r = 0 then 0 else prev (r - 1)) + 1 := by
      by_cases hj0 : j = 0
      · rw [if_pos hj0]; omega
      · rw [if_neg hj0]
        have := hP4 (j - 1)
        omega
    have hk_le_dj : (if j = 0 then 0 else prev (j - 1)) + 1 ≤ dchain a b2j j := by
      rw [dchain_eq, if_pos hdiagj]
      by_cases hj0 : j = 0
      · rw [if_pos hj0, if_pos hj0]
      · rw [if_neg hj0, if_neg hj0]
        have := hP3 (j - 1)
        omega
    unfold dpJLoop at hout
    rw [if_neg (by omega : ¬ j < 0), if_neg (by omega : ¬ a.length ≤ j)] at hout
    dsimp only at hout
    have htailsub : ∀ j2 ∈ tail, j2 ∈ b2j xr :=
      fun j2 h2 => hsub j2 (List.mem_cons_of_mem _ h2)
    have htailsort : List.Pairwise (· < ·) tail := hsort.of_cons
    have htailgt : ∀ j2 ∈ tail, j < j2 := fun j2 h2 => List.rel_of_pairwise_cons hsort h2
    rcases Nat.lt_trichotomy j r with hjr | hjr | hjr
    · -- j < r : the candidate is bounded by an older diagonal, no fire
      have hnofire : ¬ best.2.2 < (if j = 0 then 0 else prev (j - 1)) + 1 := by
        have := hB2 j hjr
        omega
      rw [if_neg hnofire] at hout
      have := ih _ _ htailsub htailsort hP3 hP4 hB1 hB2 hB6
        (by
          rcases hPH with h | h | h
          · rcases List.mem_cons.mp h with h1 | h1
            · omega
            · exact Or.inl h1
          · exact Or.inr (Or.inl h)
          · exact Or.inr (Or.inr (fun j2 h2 => h j2 (List.mem_cons_of_mem _ h2))))
        (by
          intro c
          by_cases hc : c = j
          · subst hc; simpa using hk_le_dj
          · simpa [hc] using hC3 c)
        (by
          intro c
          by_cases hc : c = j
          · subst hc; simpa using hk_le_kr
          · simpa [hc] using hC4 c)
        curO bestO hout
      refine ⟨this.1, this.2.1, this.2.2.1, this.2.2.2.1, this.2.2.2.2.1,
        this.2.2.2.2.2.1, fun hmem => this.2.2.2.2.2.2 ?_⟩
      rcases List.mem_cons.mp hmem with h1 | h1
      · omega
      · exact h1
    · -- j = r : a fire (if any) lands on the diagonal
      subst hjr
      have hkr_le : (if j = 0 then 0 else prev (j - 1)) + 1 ≤ j + 1 := by
        by_cases hj0 : j = 0
        · rw [if_pos hj0]; omega
        · rw [if_neg hj0]
          have h1 := hP3 (j - 1)
          have h2 := dchain_le a b2j (j - 1)
          omega
      have hcurj : ∀ best2,
          dpJLoop prev 0 a.length j tail
            (fun c => if c = j then (if j = 0 then 0 else prev (j - 1)) + 1 else cur c)
            best2 = (curO, bestO) →
          curO j = (if j = 0 then 0 else prev (j - 1)) + 1 := by
        intro best2 h2
        rw [show curO = (dpJLoop prev 0 a.length j tail
          (fun c => if c = j then (if j = 0 then 0 else prev (j - 1)) + 1 else cur c)
          best2).1 from by rw [h2]]
        rw [dpJLoop_preserve prev 0 a.length j tail _ _ j
          (fun j2 h2 => by have := htailgt j2 h2; omega)]
        simp
      by_cases hfire : best.2.2 < (if j = 0 then 0 else prev (j - 1)) + 1
      · rw [if_pos hfire] at hout
        have := ih _ _ htailsub htailsort hP3 hP4
          rfl
          (by
            intro c hc
            have := hB2 c hc
            dsimp only
            omega)
          (by dsimp only; omega)
          (Or.inr (Or.inl (by dsimp only; omega)))
          (by
            intro c
            by_cases hc : c = j
            · subst hc; simpa using hk_le_dj
            · simpa [hc] using hC3 c)
          (by
            intro c
            by_cases hc : c = j
            · subst hc; simp
            · simpa [hc] using hC4 c)
          curO bestO hout
        have hmono2 := this.2.1
        dsimp only at hmono2
        exact ⟨this.1, by omega, this.2.2.1, this.2.2.2.1, this.2.2.2.2.1,
          this.2.2.2.2.2.1, fun _ => ⟨by omega, hcurj _ hout⟩⟩
      · rw [if_neg hfire] at hout
        have := ih _ _ htailsub htailsort hP3 hP4 hB1 hB2 hB6
          (Or.inr (Or.inl (by omega)))
          (by
            intro c
            by_cases hc : c = j
            · subst hc; simpa using hk_le_dj
            · simpa [hc] using hC3 c)
          (by
            intro c
            by_cases hc : c = j
            · subst hc; simp
            · simpa [hc] using hC4 c)
          curO bestO hout
        have hmono2 := this.2.1
        exact ⟨this.1, this.2.1, this.2.2.1, this.2.2.2.1, this.2.2.2.2.1,
          this.2.2.2.2.2.1, fun _ => ⟨by omega, hcurj _ hout⟩⟩
    · -- r < j : the diagonal was already processed, no fire
      have hkrB : (if r = 0 then 0 else prev (r - 1)) + 1 ≤ best.2.2 := by
        rcases hPH with h | h | h
        · rcases List.mem_cons.mp h with h1 | h1
          · omega
          · exact absurd (htailgt r h1) (by omega)
        · exact h
        · exact absurd (h j (List.mem_cons_self j tail)) (by omega)
      have hnofire : ¬ best.2.2 < (if j = 0 then 0 else prev (j - 1)) + 1 := by
        omega
      rw [if_neg hnofire] at hout
      have := ih _ _ htailsub htailsort hP3 hP4 hB1 hB2 hB6
        (Or.inr (Or.inl hkrB))
        (by
          intro c
          by_cases hc : c = j
          · subst hc; simpa using hk_le_dj
          · simpa [hc] using hC3 c)
        (by
          intro c
          by_cases hc : c = j
          · subst hc; simpa using hk_le_kr
          · simpa [hc] using hC4 c)
        curO bestO hout
      refine ⟨this.1, this.2.1, this.2.2.1, this.2.2.2.1, this.2.2.2.2.1,
        this.2.2.2.2.2.1, fun hmem => this.2.2.2.2.2.2 ?_⟩
      rcases List.mem_cons.mp hmem with h1 | h1
      · omega
      · exact h1

theorem dpRows_self {α : Type} [DecidableEq α] (a : List α) (b2j : α → List Nat)
    (HS : ∀ x j, j ∈ b2j x → j < a.length ∧ a.get? j = some x)
    (HC : ∀ x j, a.get? j = some x → b2j x ≠ [] → j ∈ b2j x)
    (HP : ∀ x, List.Pairwise (· < ·) (b2j x)) :
    ∀ (count i : Nat) (prev : Nat → Nat) (best : Nat × Nat × Nat),
      i + count ≤ a.length →
      (∀ c, prev c ≤ dchain a b2j c) →
      (∀ c, prev c ≤ (if i = 0 then 0 else prev (i - 1))) →
      (i ≠ 0 → prev (i - 1) = dchain a b2j (i - 1)) →
      best.1 = best.2.1 →
      (∀ c, c < i → dchain a b2j c ≤ best.2.2) →
      best.1 + best.2.2 ≤ i →
      ∀ prevO bestO, dpRows a b2j 0 a.length count i prev best = (prevO, bestO) →
        bestO.1 = bestO.2.1 ∧ bestO.1 + bestO.2.2 ≤ i + count := by
  intro count
  induction count with
  | zero =>
    intro i prev best _ _ _ _ hB1 _ hB6 prevO bestO hout
    injection hout with h1 h2
    subst h1
    subst h2
    exact ⟨hB1, by omega⟩
  | succ cnt ih =>
    intro i prev best hlen hP3 hP4 hP5 hB1 hB2 hB6 prevO bestO hout
    have hi : i < a.length := by omega
    have hxi : a.get? i = some (a.get ⟨i, hi⟩) := List.get?_eq_get hi
    unfold dpRows at hout
    rw [hxi] at hout
    dsimp only at hout
    have hPhase : i ∈ b2j (a.get ⟨i, hi⟩) ∨
        (if i = 0 then 0 else prev (i - 1)) + 1 ≤ best.2.2 ∨
        (∀ j ∈ b2j (a.get ⟨i, hi⟩), j < i) := by
      by_cases hjs : b2j (a.get ⟨i, hi⟩) = []
      · exact Or.inr (Or.inr (fun j hj =>
          absurd (hjs ▸ hj) (List.not_mem_nil j)))
      · exact Or.inl (HC _ i hxi hjs)
    obtain ⟨rB1, rMono, rB6, rB2, rC3, rC4, rKr⟩ :=
      dpJLoop_self a b2j HS i (a.get ⟨i, hi⟩) hxi prev (b2j (a.get ⟨i, hi⟩))
        (fun _ => 0) best (fun j hj => hj) (HP _) hP3 hP4 hB1 hB2 (by omega)
        hPhase (fun c => Nat.zero_le _) (fun c => Nat.zero_le _)
        (dpJLoop prev 0 a.length i (b2j (a.get ⟨i, hi⟩)) (fun _ => 0) best).1
        (dpJLoop prev 0 a.length i (b2j (a.get ⟨i, hi⟩)) (fun _ => 0) best).2
        rfl
    have hdchain_i : dchain a b2j i
        = if i ∈ b2j (a.get ⟨i, hi⟩) then (if i = 0 then 0 else prev (i - 1)) + 1
          else 0 := by
      rw [dchain_eq]
      have hdg : diagOnB a b2j i = decide (i ∈ b2j (a.get ⟨i, hi⟩)) := by
        unfold diagOnB
        rw [hxi]
      rw [hdg]
      by_cases hmem : i ∈ b2j (a.get ⟨i, hi⟩)
      · rw [if_pos (by simpa using hmem), if_pos hmem]
        by_cases hi0 : i = 0
        · rw [if_pos hi0, if_pos hi0]
        · rw [if_neg hi0, if_neg hi0, hP5 hi0]
      · rw [if_neg (by simpa using hmem), if_neg hmem]
    by_cases hjs : b2j (a.get ⟨i, hi⟩) = []
    · -- no chain entries for this row: the map resets to zero
      rw [hjs] at hout
      have hcur0 : (dpJLoop prev 0 a.length i ([] : List Nat) (fun _ => 0) best)
          = ((fun _ => 0), best) := rfl
      have := ih (i + 1) (fun _ => 0) best (by omega)
        (fun c => Nat.zero_le _) (fun c => by simp)
        (fun _ => by
          simp only [Nat.add_sub_cancel]
          rw [hdchain_i, if_neg (fun hm => List.not_mem_nil _ (hjs ▸ hm))])
        hB1
        (by
          intro c hc
          rcases Nat.lt_succ_iff_lt_or_eq.mp hc with h | h
          · exact hB2 c h
          · subst h
            rw [hdchain_i, if_neg (fun hm => List.not_mem_nil _ (hjs ▸ hm))]
            omega)
        (by omega)
        prevO bestO (by
          rw [hcur0] at hout
          exact hout)
      exact ⟨this.1, by omega⟩
    · have hmem : i ∈ b2j (a.get ⟨i, hi⟩) := HC _ i hxi hjs
      obtain ⟨hKrB, hCurR⟩ := rKr hmem
      have := ih (i + 1)
        (dpJLoop prev 0 a.length i (b2j (a.get ⟨i, hi⟩)) (fun _ => 0) best).1
        (dpJLoop prev 0 a.length i (b2j (a.get ⟨i, hi⟩)) (fun _ => 0) best).2
        (by omega) rC3
        (by
          intro c
          simp only [Nat.add_sub_cancel]
          rw [if_neg (by omega : ¬ i + 1 = 0), hCurR]
          exact rC4 c)
        (by
          intro _
          simp only [Nat.add_sub_cancel]
          rw [hCurR, hdchain_i, if_pos hmem])
        rB1
        (by
          intro c hc
          rcases Nat.lt_succ_iff_lt_or_eq.mp hc with h | h
          · exact rB2 c h
          · subst h
            rw [hdchain_i, if_pos hmem]
            omega)
        rB6
        prevO bestO hout
      exact ⟨this.1, by omega⟩

theorem dpRows_top {α : Type} [DecidableEq α] (a : List α) (b2j : α → List Nat)
    (HS : ∀ x j, j ∈ b2j x → j < a.length ∧ a.get? j = some x)
    (HC : ∀ x j, a.get? j = some x → b2j x ≠ [] → j ∈ b2j x)
    (HP : ∀ x, List.Pairwise (· < ·) (b2j x)) :
    ∀ prevO bestO,
      dpRows a b2j 0 a.length a.length 0 (fun _ => 0) (0, 0, 0) = (prevO, bestO) →
      bestO.1 = bestO.2.1 ∧ bestO.1 + bestO.2.2 ≤ a.length := by
  intro prevO bestO h
  have := dpRows_self a b2j HS HC HP a.length 0 (fun _ => 0) (0, 0, 0)
    (by omega) (fun c => Nat.zero_le _) (fun c => by simp)
    (fun h0 => absurd rfl h0) rfl (fun c hc => absurd hc (Nat.not_lt_zero c))
    (by simp) prevO bestO h
  exact ⟨this.1, by omega⟩

theorem junkAt_false {α : Type} (b : List α) (j : Nat) :
    junkAt (fun _ => false) b j = false := by
  unfold junkAt
  cases b.get? j <;> rfl

theorem notJunkAt_false {α : Type} (b : List α) (j : Nat) (h : j < b.length) :
    notJunkAt (fun _ => false) b j = true := by
  unfold notJunkAt
  rw [List.get?_eq_get h]
  rfl

theorem matchAt_self {α : Type} [DecidableEq α] (a : List α) (i : Nat)
    (h : i < a.length) : matchAt a a i i = true := by
  unfold matchAt
  rw [List.get?_eq_get h]
  simp

theorem extendLower_self {α : Type} [DecidableEq α] (a : List α) :
    ∀ (f bi bs : Nat), bi ≤ f → bi + bs ≤ a.length →
      extendLower a a (fun _ => false) 0 0 f (bi, bi, bs) = (0, 0, bs + bi) := by
  intro f
  induction f with
  | zero =>
    intro bi bs hf _
    have hbi : bi = 0 := by omega
    subst hbi
    rfl
  | succ f ih =>
    intro bi bs hf hsum
    cases bi with
    | zero =>
      unfold extendLower
      rw [if_neg (fun hc => absurd hc.1 (by omega))]
      simp
    | succ b =>
      unfold extendLower
      rw [if_pos ⟨Nat.succ_pos b, Nat.succ_pos b,
        by simpa using notJunkAt_false a b (by omega),
        by simpa using matchAt_self a b (by omega)⟩]
      simp only [Nat.add_sub_cancel]
      rw [ih b (bs + 1) (by omega) (by omega)]
      have harith : bs + 1 + b = bs + (b + 1) := by omega
      rw [harith]

theorem extendUpper_self {α : Type} [DecidableEq α] (a : List α) :
    ∀ (f s : Nat), a.length - s ≤ f → s ≤ a.length →
      extendUpper a a (fun _ => false) a.length a.length f (0, 0, s)
        = (0, 0, a.length) := by
  intro f
  induction f with
  | zero =>
    intro s hf hs
    have hse : s = a.length := by omega
    subst hse
    rfl
  | succ f ih =>
    intro s hf hs
    by_cases hsn : s < a.length
    · unfold extendUpper
      rw [if_pos ⟨by omega, by omega,
        by simpa using notJunkAt_false a (0 + s) (by omega),
        by simpa using matchAt_self a (0 + s) (by omega)⟩]
      exact ih (s + 1) (by omega) (by omega)
    · have hse : s = a.length := by omega
      subst hse
      unfold extendUpper
      rw [if_neg (fun hc => absurd hc.1 (by omega))]

theorem extendLower_stop {α : Type} [DecidableEq α] (a b : List α)
    (junk : α → Bool) (alo blo f bi bj bs : Nat) (h : ¬ alo < bi) :
    extendLower a b junk alo blo f (bi, bj, bs) = (bi, bj, bs) := by
  cases f with
  | zero => rfl
  | succ f =>
    unfold extendLower
    rw [if_neg (fun hc => h hc.1)]

theorem extendUpper_stop {α : Type} [DecidableEq α] (a b : List α)
    (junk : α → Bool) (ahi bhi f bi bj bs : Nat) (h : ¬ bi + bs < ahi) :
    extendUpper a b junk ahi bhi f (bi, bj, bs) = (bi, bj, bs) := by
  cases f with
  | zero => rfl
  | succ f =>
    unfold extendUpper
    rw [if_neg (fun hc => h hc.1)]

theorem extendLowerJunk_id {α : Type} [DecidableEq α] (a b : List α)
    (alo blo f : Nat) (best : Nat × Nat × Nat) :
    extendLowerJunk a b (fun _ => false) alo blo f best = best := by
  cases f with
  | zero => rfl
  | succ f =>
    obtain ⟨bi, bj, bs⟩ := best
    unfold extendLowerJunk
    have hng : ¬ (alo < bi ∧ blo < bj ∧
        junkAt (fun _ => false) b (bj - 1) = true ∧
        matchAt a b (bi - 1) (bj - 1) = true) := by
      intro hc
      rw [junkAt_false] at hc
      exact Bool.noConfusion hc.2.2.1
    rw [if_neg hng]

theorem extendUpperJunk_id {α : Type} [DecidableEq α] (a b : List α)
    (ahi bhi f : Nat) (best : Nat × Nat × Nat) :
    extendUpperJunk a b (fun _ => false) ahi bhi f best = best := by
  cases f with
  | zero => rfl
  | succ f =>
    obtain ⟨bi, bj, bs⟩ := best
    unfold extendUpperJunk
    have hng : ¬ (bi + bs < ahi ∧ bj + bs < bhi ∧
        junkAt (fun _ => false) b (bj + bs) = true ∧
        matchAt a b (bi + bs) (bj + bs) = true) := by
      intro hc
      rw [junkAt_false] at hc
      exact Bool.noConfusion hc.2.2.1
    rw [if_neg hng]

theorem findLongestMatch_self_full {α : Type} [DecidableEq α] (a : List α)
    (b2j : α → List Nat)
    (HS : ∀ x j, j ∈ b2j x → j < a.length ∧ a.get? j = some x)
    (HC : ∀ x j, a.get? j = some x → b2j x ≠ [] → j ∈ b2j x)
    (HP : ∀ x, List.Pairwise (· < ·) (b2j x)) :
    findLongestMatch a a b2j (fun _ => false) 0 a.length 0 a.length
      = (0, 0, a.length) := by
  unfold findLongestMatch
  dsimp only
  generalize hgen : dpRows a b2j 0 a.length (a.length - 0) 0 (fun _ => 0)
    (0, 0, 0) = d
  obtain ⟨dp, di, dj, dk⟩ := d
  obtain ⟨hdiag, hsum⟩ := dpRows_top a b2j HS HC HP dp (di, dj, dk)
    (by rwa [Nat.sub_zero] at hgen)
  dsimp only at hdiag hsum
  subst hdiag
  dsimp only
  rw [extendLower_self a di di dk (Nat.le_refl di) hsum]
  rw [extendUpper_self a a.length (dk + di) (by omega) (by omega)]
  rw [extendLowerJunk_id, extendUpperJunk_id]

theorem findLongestMatch_empty {α : Type} [DecidableEq α] (a b : List α)
    (b2j : α → List Nat) (lo : Nat) :
    findLongestMatch a b b2j (fun _ => false) lo lo lo lo = (lo, lo, 0) := by
  unfold findLongestMatch
  dsimp only
  rw [Nat.sub_self lo]
  rw [show dpRows a b2j lo lo 0 lo (fun _ => 0) (lo, lo, 0)
    = ((fun _ => 0), (lo, lo, 0)) from rfl]
  dsimp only
  rw [extendLower_stop a b _ lo lo lo lo lo 0 (by omega)]
  rw [extendUpper_stop a b _ lo lo lo lo lo 0 (by omega)]
  rw [extendLowerJunk_id, extendUpperJunk_id]

theorem matchingBlocksAux_empty {α : Type} [DecidableEq α] (a b : List α)
    (b2j : α → List Nat) (lo : Nat) :
    ∀ f, matchingBlocksAux a b b2j (fun _ => false) f lo lo lo lo = [] := by
  intro f
  cases f with
  | zero => rfl
  | succ f =>
    unfold matchingBlocksAux
    rw [findLongestMatch_empty a b b2j lo]
    rfl

theorem getMatchingBlocks_self {α : Type} [DecidableEq α] (a : List α) :
    getMatchingBlocks a a (fun _ => false)
      = if a.length = 0 then [(0, 0, 0)]
        else [(0, 0, a.length), (a.length, a.length, 0)] := by
  have HS := fun x j hj => seqB2j_sound a x j hj
  have HC := fun x j hg hne => seqB2j_complete a x j hg hne
  have HP := fun x => seqB2j_pairwise a x
  unfold getMatchingBlocks
  dsimp only
  unfold matchingBlocksAux
  rw [findLongestMatch_self_full a (seqB2j a) HS HC HP]
  by_cases hn : a.length = 0
  · rw [if_pos (by simpa using hn), if_pos hn, hn]
    rfl
  · rw [if_neg (by simpa using hn), if_neg hn]
    dsimp only
    rw [matchingBlocksAux_empty a a (seqB2j a) 0 (a.length + a.length)]
    rw [show (0 : Nat) + a.length = a.length from Nat.zero_add _]
    rw [matchingBlocksAux_empty a a (seqB2j a) a.length (a.length + a.length)]
    show mergeAdjacent (0, 0, 0) [(0, 0, a.length)] ++ _ = _
    unfold mergeAdjacent
    rw [if_pos ⟨rfl, rfl⟩]
    unfold mergeAdjacent
    rw [if_pos (by simpa using hn)]
    rw [show (0 : Nat) + a.length = a.length from Nat.zero_add _]
    rfl

theorem matcherSimilarity_self {α : Type} [DecidableEq α] (a : List α) :
    matcherSimilarity a a (fun _ => false) = 1 := by
  unfold matcherSimilarity
  rw [getMatchingBlocks_self]
  by_cases hn : a.length = 0
  · rw [if_pos hn, if_pos (by omega)]
  · rw [if_neg hn, if_neg (by omega)]
    simp only [List.map_cons, List.map_nil, List.sum_cons, List.sum_nil]
    have hq : ((a.length : ℚ)) ≠ 0 := Nat.cast_ne_zero.mpr hn
    field_simp
    ring

theorem getOpcodes_self {α : Type} [DecidableEq α] (a : List α) :
    getOpcodes a a (fun _ => false)
      = if a.length = 0 then []
        else [(OpTag.equal, 0, a.length, 0, a.length)] := by
  unfold getOpcodes
  rw [getMatchingBlocks_self]
  by_cases hn : a.length = 0
  · rw [if_pos hn, if_pos hn]
    simp [opcodesAux]
  · rw [if_neg hn, if_neg hn]
    simp [opcodesAux, hn]

theorem compareText_self (t : String) : compareText t t = [] := by
  unfold compareText
  dsimp only
  rw [getOpcodes_self]
  by_cases hn : (pySplitLines t).length = 0
  · rw [if_pos hn]
    rfl
  · rw [if_neg hn]
    rfl

theorem pyRound1_zero : pyRound1 0 = 0 := by
  unfold pyRound1
  norm_num

/-- C3 (counterexample).  `_calculate_change_percentage` short-circuits on a
falsy (empty) old content and returns 100.0, so comparing the empty text with
itself yields a change ratio of 100.0 rather than the claimed 0.0. -/
theorem C3_counterexample :
    calculateChangePercentage "" "" = 100 ∧ (100 : ℚ) ≠ 0 :=
  ⟨rfl, by norm_num⟩

/-- C3 (amended).  Comparing a text with itself yields an empty list of
line-level changes for every text, and a change ratio of 0.0 for every
non-empty text; the empty text is the exception, for which the ratio is
100.0 (the empty-old-text special case fires first). -/
theorem C3_amended (t : String) :
    compareText t t = [] ∧ (t ≠ "" → calculateChangePercentage t t = 0) := by
  refine ⟨compareText_self t, fun h => ?_⟩
  unfold calculateChangePercentage
  rw [if_neg h, if_neg h, matcherSimilarity_self]
  rw [show (1 - (1 : ℚ)) * 100 = 0 by ring, pyRound1_zero]

/-- C3 (witness). -/
theorem C3_witness :
    compareText "ab" "ab" = [] ∧
    ("ab" ≠ "" ∧ calculateChangePercentage "ab" "ab" = 0) :=
  ⟨(C3_amended "ab").1, by decide, (C3_amended "ab").2 (by decide)⟩

end WebMon
